import Mathlib

/-!
Verification of the compactor-hierarchy streaming sketches
(KLL, RelativeErrorSketch, GDE) of the streaming-quantiles repository.

The Python sources are shallowly embedded:
* randomness (`random() < 0.5` coin flips) is an explicit stream
  `coins : Nat → Bool` together with a cursor `rng` carried in the sketch
  state;
* Python floats (`sectionSizeF`, the GDE Gaussian kernel) become real
  numbers;
* Python `assert` statements and raised exceptions become `Except` errors;
* the numpy shuffle / sign draws of GDE become step relations.
-/
/-- Elements at indices 0, 2, 4, … of a list; `everyOther (l.drop i)`
models Python's `l[i::2]`. -/
def everyOther {α : Type} : List α → List α
  | [] => []
  | [a] => [a]
  | a :: _ :: rest => a :: everyOther rest

/-! ## The KLL sketch (kll.py) -/
/-- State of `Compactor` in kll.py (a Python list with three extra
attributes). -/
structure KCompactor where
  buf : List Int
  numCompaction : Nat
  offset : Nat
  alternate : Bool
deriving DecidableEq

instance : Inhabited KCompactor := ⟨⟨[], 0, 0, false⟩⟩

/-- `Compactor.compact` of kll.py.  The generator is modelled as a pure
function from the compactor and one coin flip to the emitted items and
the post-compaction compactor: choose the offset (flip it every other
time when `alternate`, otherwise a fair coin), sort, pop the last item
when the length is odd, emit indices `offset, offset+2, …`, clear, push
the popped tail back, and bump `numCompaction`. -/
def KCompactor.compact (co : KCompactor) (coin : Bool) : List Int × KCompactor :=
  let offset2 := if co.numCompaction % 2 = 1 ∧ co.alternate
    then 1 - co.offset else (if coin then 1 else 0)
  let sorted := co.buf.insertionSort (fun a b => a ≤ b)
  let main := if sorted.length % 2 = 1 then sorted.dropLast else sorted
  let tail := if sorted.length % 2 = 1 then sorted.drop (sorted.length - 1) else []
  (everyOther (main.drop offset2),
   { co with buf := tail, numCompaction := co.numCompaction + 1, offset := offset2 })

/-- State of the `KLL` class. -/
structure KllS where
  k : Nat
  c : ℚ
  lazy : Bool
  alternate : Bool
  compactors : List KCompactor
  H : Nat
  size : Nat
  maxSize : Nat
  rng : Nat
deriving DecidableEq

/-- `KLL.capacity`: `int(ceil(c**depth * k)) + 1` with `depth = H - height - 1`. -/
def kllCapacity (k : Nat) (c : ℚ) (H height : Nat) : Nat :=
  (⌈c ^ (H - height - 1) * (k : ℚ)⌉).toNat + 1

/-- `sum(self.capacity(height) for height in range(self.H))`. -/
def kllMaxSizeOf (k : Nat) (c : ℚ) (H : Nat) : Nat :=
  ((List.range H).map (kllCapacity k c H)).sum

/-- `sum(len(c) for c in self.compactors)`. -/
def ksumLen (cs : List KCompactor) : Nat := (cs.map (fun c => c.buf.length)).sum

/-- `cs[h].extend(em)` for a list-valued buffer at index `h` (no-op out
of range, which is unreachable in the modelled code paths). -/
def extendAt (em : List Int) : List KCompactor → Nat → List KCompactor
  | [], _ => []
  | c :: cs, 0 => { c with buf := c.buf ++ em } :: cs
  | c :: cs, h + 1 => c :: extendAt em cs h

/-- `KLL.grow`. -/
def KllS.grow (st : KllS) : KllS :=
  let cs := st.compactors ++ [⟨[], 0, 0, st.alternate⟩]
  { st with compactors := cs, H := cs.length, maxSize := kllMaxSizeOf st.k st.c cs.length }

/-- Compact level `h`, extend level `h+1` with the emitted items, and
recompute `size` (`self.size = sum(len(c) for c in self.compactors)`). -/
def kllCompactCore (coins : Nat → Bool) (st1 : KllS) (h : Nat) : KllS :=
  let pr := (st1.compactors.getD h default).compact (coins st1.rng)
  let cs1 := st1.compactors.set h pr.2
  let cs2 := extendAt pr.1 cs1 (h + 1)
  { st1 with compactors := cs2, size := ksumLen cs2, rng := st1.rng + 1 }

/-- The body of one compacting iteration of `KLL.compress`: grow first if
`h` is the top level, then compact level `h` into level `h+1`. -/
def kllCompactAt (coins : Nat → Bool) (st : KllS) (h : Nat) : KllS :=
  kllCompactCore coins (if h + 1 ≥ st.H then st.grow else st) h

/-- One iteration `h` of the loop in `KLL.compress`, recursing on the
remaining number `n` of loop iterations (Python evaluates
`range(len(self.compactors))` once at loop entry).  A lazy sketch breaks
out of the loop right after the first compaction. -/
def kllCompressAux (coins : Nat → Bool) : KllS → Nat → Nat → KllS
  | st, _, 0 => st
  | st, h, n + 1 =>
    if (st.compactors.getD h default).buf.length ≥ kllCapacity st.k st.c st.H h then
      let st2 := kllCompactAt coins st h
      if st2.lazy then st2 else kllCompressAux coins st2 (h + 1) n
    else kllCompressAux coins st (h + 1) n

/-- `KLL.compress`. -/
def KllS.compress (coins : Nat → Bool) (st : KllS) : KllS :=
  kllCompressAux coins st 0 st.compactors.length

/-- `KLL.update`: append to compactor 0, bump `size`, and compress when
`size >= maxSize`. -/
def KllS.update (coins : Nat → Bool) (st : KllS) (x : Int) : KllS :=
  let cs := extendAt [x] st.compactors 0
  let st1 := { st with compactors := cs, size := st.size + 1 }
  if st1.size ≥ st1.maxSize then st1.compress coins else st1

/-- `while self.H < other.H: self.grow()`, run with fuel `target`. -/
def kllGrowUntil (target : Nat) : Nat → KllS → KllS
  | 0, st => st
  | fuel + 1, st => if st.H < target then kllGrowUntil target fuel st.grow else st

/-- `for h in range(other.H): self.compactors[h].extend(other.compactors[h])`. -/
def kllExtendLevels : List KCompactor → List KCompactor → List KCompactor
  | cs, [] => cs
  | [], _ :: _ => []
  | c :: cs, o :: os => { c with buf := c.buf ++ o.buf } :: kllExtendLevels cs os

/-- `while self.size >= self.maxSize: self.compress()`, run with fuel. -/
def kllMergeLoop (coins : Nat → Bool) : Nat → KllS → KllS
  | 0, st => st
  | fuel + 1, st =>
    if st.size ≥ st.maxSize then kllMergeLoop coins fuel (st.compress coins) else st

/-- `KLL.merge`.  The fuel `size + 1` is shown sufficient below. -/
def KllS.merge (coins : Nat → Bool) (st other : KllS) : KllS :=
  let st1 := kllGrowUntil other.H other.H st
  let cs := kllExtendLevels st1.compactors other.compactors
  let st2 := { st1 with compactors := cs, size := ksumLen cs }
  kllMergeLoop coins (st2.size + 1) st2

/-- Error kinds: `InvalidParameter` models Python `ValueError`,
`assertionFailed` a failing `assert`, `indexError` an out-of-range list
subscript. -/
inductive SkErr
  | invalidParameter
  | assertionFailed
  | indexError
deriving DecidableEq

/-- `KLL.__init__`: validates `k > 0` and `0.5 < c <= 1`, then grows the
first (height-0) compactor. -/
def kllInit (k : Int) (c : ℚ) (lazy alternate : Bool) : Except SkErr KllS :=
  if k ≤ 0 then .error .invalidParameter
  else if c ≤ 1 / 2 ∨ 1 < c then .error .invalidParameter
  else .ok (KllS.grow
    { k := k.toNat, c := c, lazy := lazy, alternate := alternate,
      compactors := [], H := 0, size := 0, maxSize := 0, rng := 0 })

/-- Total stored weight `Σ_h 2^h · |compactors[h]|` of a KLL sketch. -/
def kllTotalWeight (cs : List KCompactor) : Nat :=
  ((List.range cs.length).map
    (fun h => 2 ^ h * (cs.getD h default).buf.length)).sum

/-- States reachable by public KLL operations, together with the number
of stream items fed in (the class does not store N). -/
inductive KReach : KllS → Nat → Prop
  | init (k : Int) (c : ℚ) (lz alt : Bool) (st : KllS) :
      kllInit k c lz alt = .ok st → KReach st 0
  | update (coins : Nat → Bool) (st : KllS) (n : Nat) (x : Int) :
      KReach st n → KReach (st.update coins x) (n + 1)
  | merge (coins : Nat → Bool) (st : KllS) (n : Nat) (other : KllS) (m : Nat) :
      KReach st n → KReach other m → KReach (st.merge coins other) (n + m)

/-! ### The KLL bookkeeping invariant -/
/-- Structural bookkeeping of a KLL sketch: `H` mirrors the number of
compactors, `maxSize` and `size` equal the sums the class maintains,
and the constructor-validated parameter bounds hold. -/
def KBase (st : KllS) : Prop :=
  st.H = st.compactors.length ∧
  st.maxSize = kllMaxSizeOf st.k st.c st.H ∧
  st.size = ksumLen st.compactors ∧
  1 ≤ st.k ∧ 1 / 2 < st.c ∧ st.c ≤ 1 ∧ 1 ≤ st.H

/-- Level-indexed weight `Σ_h 2^h·|buf_h|` in head-recursive form. -/
def kw : List KCompactor → Nat
  | [] => 0
  | c :: cs => c.buf.length + 2 * kw cs

/-! ## The relative-error sketch (relativeErrorSketch.py) -/
def INIT_NUMBER_OF_SECTIONS : Nat := 3

def SMALLEST_MEANINGFUL_SECTION_SIZE : Nat := 4

/-- `trailing_ones_binary`: the number of trailing ones in the binary
representation (the source strips `'1'` characters from the formatted
string; here computed arithmetically, with fuel for structural
recursion). -/
def trailingOnesAux : Nat → Nat → Nat
  | 0, _ => 0
  | fuel + 1, n => if n % 2 = 1 then trailingOnesAux fuel (n / 2) + 1 else 0

def trailing_ones_binary (n : Nat) : Nat := trailingOnesAux n n

/-- State of `RelativeCompactor`.  `sectionSizeF` is the Python float,
embedded as a real number. -/
structure RelCompactor where
  buf : List Int
  numCompactions : Nat
  state : Nat
  offset : Nat
  sectionSize : Nat
  sectionSizeF : ℝ
  numSections : Nat
  height : Nat

instance : Inhabited RelCompactor := ⟨⟨[], 0, 0, 0, 0, 0, 0, 0⟩⟩

/-- `RelativeCompactor.__init__(sectionSize, height)`. -/
def freshRel (sectionSize height : Nat) : RelCompactor :=
  { buf := [], numCompactions := 0, state := 0, offset := 0,
    sectionSize := sectionSize, sectionSizeF := (sectionSize : ℝ),
    numSections := INIT_NUMBER_OF_SECTIONS, height := height }

/-- `nomCapacity` (without its assert): `2 * numSections * sectionSize`. -/
def RelCompactor.nomCapacity (co : RelCompactor) : Nat :=
  2 * co.numSections * co.sectionSize

/-- `ensureEnoughSections`: double the sections and shrink the section
size by `sqrt(2)` once `numCompactions` reaches `2^(numSections-1)`.
`int(...)` on the nonnegative float is `Nat.floor`. -/
noncomputable def RelCompactor.ensureEnoughSections (co : RelCompactor) : RelCompactor :=
  if co.numCompactions ≥ 2 ^ (co.numSections - 1) then
    { co with
      numSections := co.numSections * 2,
      sectionSizeF := co.sectionSizeF / Real.sqrt 2,
      sectionSize := ⌊co.sectionSizeF / Real.sqrt 2⌋₊ }
  else co

/-- The compaction start index `s` before the parity adjustment
(`cap // 2` for small sections, else the deterministic schedule).
Computed in `Int` to mirror Python arithmetic. -/
def reqCompactS (co : RelCompactor) : Int :=
  if co.sectionSize < SMALLEST_MEANINGFUL_SECTION_SIZE then
    ((co.nomCapacity / 2 : Nat) : Int)
  else
    ((co.nomCapacity / 2 : Nat) : Int)
      + ((co.numSections : Int) - (trailing_ones_binary co.state + 1)) * co.sectionSize

/-- The parity adjustment: if `(len - s)` is odd, decrement `s`
(or increment when `s = 0`). -/
def reqCompactSAdj (co : RelCompactor) (len : Nat) : Int :=
  let s := reqCompactS co
  if ((len : Int) - s) % 2 = 1 then (if s > 0 then s - 1 else s + 1) else s

/-- `RelativeCompactor.compact`, with every `assert` of the source as a
guard: the capacity assert inside `nomCapacity`, `len(self) >= cap`, the
two schedule asserts of the deterministic branch, and the two asserts on
the adjusted `s`.  Returns the emitted items and the post-compaction
compactor. -/
noncomputable def RelCompactor.compact (co : RelCompactor) (coin : Bool) :
    Except SkErr (List Int × RelCompactor) :=
  let cap := co.nomCapacity
  if ¬ 1 < cap then .error .assertionFailed
  else if ¬ co.buf.length ≥ cap then .error .assertionFailed
  else if ¬ (co.sectionSize < SMALLEST_MEANINGFUL_SECTION_SIZE
      ∨ (co.numCompactions ≤ 2 ^ (co.numSections - 1)
          ∧ co.state ≤ 2 ^ (co.numSections - 1))) then .error .assertionFailed
  else
    let sorted := co.buf.insertionSort (fun a b => a ≤ b)
    let co1 := if co.sectionSize < SMALLEST_MEANINGFUL_SECTION_SIZE then co
      else co.ensureEnoughSections
    let s := reqCompactSAdj co co.buf.length
    if ¬ s < (co.buf.length : Int) - 1 then .error .assertionFailed
    else if ¬ s ≥ ((cap / 2 : Nat) : Int) - 1 then .error .assertionFailed
    else
      let sN := s.toNat
      let offset2 := if co.numCompactions % 2 = 1 then 1 - co.offset
        else (if coin then 1 else 0)
      let emitted := everyOther (sorted.drop (sN + offset2))
      .ok (emitted,
        { co1 with
          buf := sorted.take sN,
          numCompactions := co.numCompactions + 1,
          state := co.state + 1,
          offset := offset2 })

/-- State of `RelativeErrorSketch`. -/
structure ReqSketch where
  k : Nat
  compactors : List RelCompactor
  H : Nat
  size : Nat
  N : Nat
  maxNomSize : Nat
  rng : Nat

/-- `sum(len(c) for c in self.compactors)`. -/
def rsumLen (cs : List RelCompactor) : Nat := (cs.map (fun c => c.buf.length)).sum

/-- `cs[h].extend(em)` (no-op out of range). -/
def rextendAt (em : List Int) : List RelCompactor → Nat → List RelCompactor
  | [], _ => []
  | c :: cs, 0 => { c with buf := c.buf ++ em } :: cs
  | c :: cs, h + 1 => c :: rextendAt em cs h

/-- `updateMaxNomSize`: recompute `maxNomSize = Σ nomCapacity()`; each
`nomCapacity()` call asserts `cap > 1`. -/
def reqUpdateMaxNomSizeE (st : ReqSketch) : Except SkErr ReqSketch :=
  if st.compactors.all (fun c => decide (1 < c.nomCapacity)) then
    .ok { st with maxNomSize := (st.compactors.map (fun c => c.nomCapacity)).sum }
  else .error .assertionFailed

/-- `RelativeErrorSketch.grow`: append a fresh compactor with
`sectionSize = k` at the current height, then `updateMaxNomSize`. -/
def ReqSketch.grow (st : ReqSketch) : Except SkErr ReqSketch :=
  let cs := st.compactors ++ [freshRel st.k st.H]
  reqUpdateMaxNomSizeE { st with compactors := cs, H := cs.length }

/-- `RelativeErrorSketch.__init__(k)`: no explicit validation; `grow`
triggers the `cap > 1` assert of `nomCapacity`, which fails exactly when
`2*3*k <= 1`, i.e. `k <= 0`. -/
def reqInit (k : Int) : Except SkErr ReqSketch :=
  if k ≤ 0 then .error .assertionFailed
  else ReqSketch.grow
    { k := k.toNat, compactors := [], H := 0, size := 0, N := 0,
      maxNomSize := 0, rng := 0 }

/-- The loop of `compress`: each iteration checks
`len(compactors[h]) >= compactors[h].nomCapacity()` (asserting
`cap > 1`), grows at the top, compacts, extends level `h+1`, recomputes
`size`, and for a lazy compress breaks once `size < maxNomSize`. -/
noncomputable def reqCompressAux (coins : Nat → Bool) (lazy : Bool) :
    ReqSketch → Nat → Nat → Except SkErr ReqSketch
  | st, _, 0 => .ok st
  | st, h, n + 1 =>
    let co := st.compactors.getD h default
    if ¬ 1 < co.nomCapacity then .error .assertionFailed
    else if co.buf.length ≥ co.nomCapacity then
      match (if h + 1 ≥ st.H then st.grow else .ok st) with
      | .error e => .error e
      | .ok st1 =>
        match (st1.compactors.getD h default).compact (coins st1.rng) with
        | .error e => .error e
        | .ok pr =>
          let cs1 := st1.compactors.set h pr.2
          let cs2 := rextendAt pr.1 cs1 (h + 1)
          let st2 := { st1 with
            compactors := cs2, size := rsumLen cs2, rng := st1.rng + 1 }
          if lazy ∧ st2.size < st2.maxNomSize then .ok st2
          else reqCompressAux coins lazy st2 (h + 1) n
    else reqCompressAux coins lazy st (h + 1) n

/-- `RelativeErrorSketch.compress(lazy)`. -/
noncomputable def ReqSketch.compress (coins : Nat → Bool) (lazy : Bool)
    (st : ReqSketch) : Except SkErr ReqSketch :=
  match reqUpdateMaxNomSizeE st with
  | .error e => .error e
  | .ok st0 =>
    if st0.size < st0.maxNomSize then .ok st0
    else reqCompressAux coins lazy st0 0 st0.compactors.length

/-- `RelativeErrorSketch.update`: append to compactor 0, bump `size` and
`N`, lazily compress when at `maxNomSize`, and check the trailing
`assert(self.size < self.maxNomSize)`. -/
noncomputable def ReqSketch.update (coins : Nat → Bool) (st : ReqSketch) (x : Int) :
    Except SkErr ReqSketch :=
  match st.compactors with
  | [] => .error .indexError
  | _ :: _ =>
    let st1 := { st with
      compactors := rextendAt [x] st.compactors 0,
      size := st.size + 1, N := st.N + 1 }
    match (if st1.size ≥ st1.maxNomSize then st1.compress coins true else .ok st1) with
    | .error e => .error e
    | .ok st2 => if st2.size < st2.maxNomSize then .ok st2 else .error .assertionFailed

/-- `RelativeCompactor.mergeIntoSelf`: OR the schedule states, add the
compaction counts, re-evaluate section doubling, then concatenate the
buffers. -/
noncomputable def RelCompactor.mergeIntoSelf (co other : RelCompactor) : RelCompactor :=
  let co2 := { co with
    state := co.state ||| other.state,
    numCompactions := co.numCompactions + other.numCompactions }
  let co3 := co2.ensureEnoughSections
  { co3 with buf := co3.buf ++ other.buf }

/-- `while self.H < other.H: self.grow()`, with fuel. -/
def reqGrowUntil (target : Nat) : Nat → ReqSketch → Except SkErr ReqSketch
  | 0, st => .ok st
  | fuel + 1, st =>
    if st.H < target then
      match st.grow with
      | .error e => .error e
      | .ok st2 => reqGrowUntil target fuel st2
    else .ok st

/-- `for h in range(other.H): self.compactors[h].mergeIntoSelf(other.compactors[h])`. -/
noncomputable def reqMergeLevels : List RelCompactor → List RelCompactor → List RelCompactor
  | cs, [] => cs
  | [], _ :: _ => []
  | c :: cs, o :: os => c.mergeIntoSelf o :: reqMergeLevels cs os

/-- `RelativeErrorSketch.mergeIntoSelf`: grow to the other's height,
merge compactors level by level, add `N`, recompute `size`, compress
non-lazily when at `maxNomSize`, and check the trailing assert. -/
noncomputable def ReqSketch.mergeIntoSelf (coins : Nat → Bool) (st other : ReqSketch) :
    Except SkErr ReqSketch :=
  match reqGrowUntil other.H other.H st with
  | .error e => .error e
  | .ok st1 =>
    let cs := reqMergeLevels st1.compactors other.compactors
    let st2 := { st1 with compactors := cs, N := st1.N + other.N, size := rsumLen cs }
    match (if st2.size ≥ st2.maxNomSize then st2.compress coins false else .ok st2) with
    | .error e => .error e
    | .ok st3 => if st3.size < st3.maxNomSize then .ok st3 else .error .assertionFailed

/-- Level-indexed weight `Σ_h 2^h·|buf_h|` of the Req compactors. -/
def rkw : List RelCompactor → Nat
  | [] => 0
  | c :: cs => c.buf.length + 2 * rkw cs

/-- Req states reachable through completed public operations. -/
inductive RReach : ReqSketch → Prop
  | init (k : Int) (st : ReqSketch) : reqInit k = .ok st → RReach st
  | update (coins : Nat → Bool) (st : ReqSketch) (x : Int) (st2 : ReqSketch) :
      RReach st → st.update coins x = .ok st2 → RReach st2
  | merge (coins : Nat → Bool) (st other st2 : ReqSketch) :
      RReach st → RReach other → st.mergeIntoSelf coins other = .ok st2 →
      RReach st2

/-! ### Req ranks and quantile -/
/-- The lexicographic order Python's `list.sort` uses on
`(item, weight)` tuples. -/
def pairLe (a b : Int × Nat) : Prop :=
  a.1 < b.1 ∨ (a.1 = b.1 ∧ a.2 ≤ b.2)

instance : DecidableRel pairLe := fun a b => by
  unfold pairLe; infer_instance

/-- The `enumerate` loop of `ranks`, carried at starting height `h`:
`itemsAndWeights.extend((item, 2**h) for item in items)`. -/
def reqIAWAux : List RelCompactor → Nat → List (Int × Nat)
  | [], _ => []
  | c :: cs, h => c.buf.map (fun x => (x, 2 ^ h)) ++ reqIAWAux cs (h + 1)

/-- `itemsAndWeights` as built by `ranks` before sorting. -/
def reqItemsAndWeights (cs : List RelCompactor) : List (Int × Nat) :=
  reqIAWAux cs 0

/-- The cumulative-weight loop of `ranks`. -/
def cumRanksAux : List (Int × Nat) → Nat → List (Int × Nat)
  | [], _ => []
  | (x, w) :: rest, acc => (x, acc + w) :: cumRanksAux rest (acc + w)

/-- `RelativeErrorSketch.ranks()`. -/
def ReqSketch.ranks (st : ReqSketch) : List (Int × Nat) :=
  cumRanksAux (List.insertionSort pairLe (reqItemsAndWeights st.compactors)) 0

/-- The `while i < j` binary-search loop of `quantile`, with fuel. -/
noncomputable def reqBsearchAux (rl : List (Int × Nat)) (desired : ℝ) :
    Nat → Nat → Nat → Nat
  | 0, i, _ => i
  | fuel + 1, i, j =>
    if i < j then
      let m := (i + j) / 2
      if desired > (((rl.getD m (0, 0)).2 : Nat) : ℝ) then
        reqBsearchAux rl desired fuel (m + 1) j
      else reqBsearchAux rl desired fuel i m
    else i

/-- `RelativeErrorSketch.quantile(q)`: the leading `assert` on `q`, the
binary search over `ranks()`, and the final `ranks[i]` indexing. -/
noncomputable def ReqSketch.quantile (st : ReqSketch) (q : ℝ) : Except SkErr Int :=
  if 0 ≤ q ∧ q ≤ 1 then
    let rl := st.ranks
    let i := reqBsearchAux rl (q * st.N) rl.length 0 rl.length
    if h : i < rl.length then .ok (rl.get ⟨i, h⟩).1
    else .error .indexError
  else .error .assertionFailed

/-! ### The lazy KLL compress performs at most one compaction -/
/-- The first level in `range(h, h+n)` whose buffer is at capacity. -/
def kllFindOverAux (st : KllS) : Nat → Nat → Option Nat
  | _, 0 => none
  | h, n + 1 =>
    if (st.compactors.getD h default).buf.length ≥ kllCapacity st.k st.c st.H h
    then some h
    else kllFindOverAux st (h + 1) n

/-- The first level at capacity, scanning `range(len(compactors))`. -/
def kllFindOver (st : KllS) : Option Nat :=
  kllFindOverAux st 0 st.compactors.length

/-! ## The Gaussian density estimation sketch (gde.py) -/
/-- The GDE sketch state.  Vectors are `List ℝ`; `d = none` models
`self.d == None`. -/
structure GDE where
  k : Int
  d : Option Nat
  n : Nat
  size : Nat
  compactors : List (List (List ℝ))
  max_size : Int

/-- `np.sum([len(c) for c in self.compactors])`. -/
def gSumLen (cs : List (List (List ℝ))) : Nat := (cs.map List.length).sum

/-- `compactors[h].extend(em)` (no-op out of range). -/
def gExtendAt (em : List (List ℝ)) : List (List (List ℝ)) → Nat → List (List (List ℝ))
  | [], _ => []
  | c :: cs, 0 => (c ++ em) :: cs
  | c :: cs, h + 1 => c :: gExtendAt em cs h

/-- `GDE.__init__(k, d=None)`: one empty compactor and
`max_size = k * len(compactors)`. -/
def gInit (k : Int) : GDE :=
  { k := k, d := none, n := 0, size := 0, compactors := [[]], max_size := k * 1 }

/-- `np.linalg.norm`. -/
noncomputable def gNorm (w : List ℝ) : ℝ := Real.sqrt ((w.map (fun x => x ^ 2)).sum)

/-- `GDE.kernel`: `np.exp(-np.linalg.norm(v1 - v2)**2)`. -/
noncomputable def gKernel (u v : List ℝ) : ℝ :=
  Real.exp (-(gNorm (List.zipWith (fun a b => a - b) u v) ^ 2))

/-- `np.sign`. -/
noncomputable def mySign (x : ℝ) : ℝ := if x < 0 then -1 else if 0 < x then 1 else 0

/-- The deterministic sign loop of `GDE.compact`: `signs[0]` keeps its
random value `s0`, and each later `signs[i]` is `-np.sign(delta)` for
`delta = sum(signs[j]*kernel(compactor[i], compactor[j]) for j < i)`. -/
noncomputable def gSigns (shuffled : List (List ℝ)) (s0 : ℝ) : Nat → List ℝ
  | 0 => [s0]
  | i + 1 =>
    let prev := gSigns shuffled s0 i
    let delta := ((List.range (i + 1)).map (fun j =>
      prev.getD j 0 * gKernel (shuffled.getD (i + 1) []) (shuffled.getD j []))).sum
    prev ++ [-mySign delta]

/-- The full sign list for a (shuffled) compactor. -/
noncomputable def gSignsFor (shuffled : List (List ℝ)) (s0 : ℝ) : List ℝ :=
  match shuffled with
  | [] => []
  | _ :: _ => gSigns shuffled s0 (shuffled.length - 1)

/-- `for i, sign in enumerate(signs): if sign >= 0: yield compactor[i]`. -/
noncomputable def gEmit : List (List ℝ) → List ℝ → List (List ℝ)
  | v :: vs, s :: ss => if 0 ≤ s then v :: gEmit vs ss else gEmit vs ss
  | _, _ => []

/-- `GDE.compact`: shuffle the buffer, draw `signs[0]` at random, run
the deterministic sign loop, and emit the vectors with nonnegative
sign.  Relational because of the shuffle and the random first sign. -/
inductive GCompact : List (List ℝ) → List (List ℝ) → Prop
  | mk (compactor shuffled em : List (List ℝ)) (s0 : ℝ)
      (hperm : List.Perm compactor shuffled)
      (hs : s0 = 1 ∨ s0 = -1)
      (hem : em = gEmit shuffled (gSignsFor shuffled s0)) :
      GCompact compactor em

/-- `GDE.first_large_compress`: find the first level whose length is at
least `k`; if found, grow at the top if needed, compact it into the next
level, and break. -/
inductive GFLC : Int → List (List (List ℝ)) → List (List (List ℝ)) → Prop
  | noCompaction (k : Int) (cs : List (List (List ℝ))) :
      (∀ c ∈ cs, (c.length : Int) < k) → GFLC k cs cs
  | found (k : Int) (cs cs2 : List (List (List ℝ))) (h : Nat) (em : List (List ℝ))
      (hh : h < cs.length)
      (hover : k ≤ ((cs.getD h []).length : Int))
      (hfirst : ∀ g, g < h → ((cs.getD g []).length : Int) < k)
      (hcompact : GCompact (cs.getD h []) em)
      (hcs2 : cs2 = gExtendAt em
        ((if cs.length - 1 ≤ h then cs ++ [[]] else cs).set h []) (h + 1)) :
      GFLC k cs cs2

/-- The `while self.size >= self.max_size` loop of `update` and `merge`:
compress, then recompute `max_size = k * len(compactors)` and
`size = sum of lengths`. -/
inductive GWhile : GDE → GDE → Prop
  | done (g : GDE) : (g.size : Int) < g.max_size → GWhile g g
  | step (g : GDE) (cs2 : List (List (List ℝ))) (g2 : GDE) :
      g.max_size ≤ (g.size : Int) →
      GFLC g.k g.compactors cs2 →
      GWhile { g with
          compactors := cs2,
          max_size := g.k * (cs2.length : Int),
          size := gSumLen cs2 } g2 →
      GWhile g g2

/-- `GDE.update(vector)`: set or check `d`, run the compress loop, then
append the vector at level 0 bumping `n` and `size`. -/
inductive GUpdate : GDE → List ℝ → GDE → Prop
  | mk (g : GDE) (v : List ℝ) (g1 g2 : GDE) :
      (g.d = none ∨ g.d = some v.length) →
      GWhile { g with d := some v.length } g1 →
      g2 = { g1 with
          n := g1.n + 1,
          size := g1.size + 1,
          compactors := gExtendAt [v] g1.compactors 0 } →
      GUpdate g v g2

/-- `while len(self.compactors) < len(other.compactors): append([])`. -/
def gPad (cs : List (List (List ℝ))) (target : Nat) : List (List (List ℝ)) :=
  cs ++ List.replicate (target - cs.length) []

/-- `for c1, c2 in zip(self.compactors, other.compactors): c1.extend(c2)`. -/
def gZipExtend : List (List (List ℝ)) → List (List (List ℝ)) → List (List (List ℝ))
  | cs, [] => cs
  | [], _ :: _ => []
  | c :: cs, o :: os => (c ++ o) :: gZipExtend cs os

/-- `GDE.merge(other)`: return unchanged on an empty `other`, else adopt
or check the dimension, pad and merge the compactor lists, recompute
`size`, add `n`, and run the compress loop — without refreshing
`max_size` before the loop test. -/
inductive GMerge : GDE → GDE → GDE → Prop
  | otherEmpty (g other : GDE) : other.d = none → other.n = 0 → GMerge g other g
  | mk (g other : GDE) (dv : Nat) (cs1 : List (List (List ℝ))) (g2 g3 : GDE) :
      other.d = some dv →
      ((g.d = none ∧ g.n = 0) ∨ g.d = some dv) →
      cs1 = gZipExtend (gPad g.compactors other.compactors.length) other.compactors →
      g2 = { g with
          d := some dv,
          compactors := cs1,
          size := gSumLen cs1,
          n := g.n + other.n } →
      GWhile g2 g3 →
      GMerge g other g3

/-- The serialized form of a GDE sketch: exactly the fields
`to_string` writes into the JSON document. -/
structure GSer where
  d : Option Nat
  k : Int
  n : Nat
  compactors : List (List (List ℝ))

/-- `GDE.to_string`. -/
def GDE.to_string (g : GDE) : GSer :=
  { d := g.d, k := g.k, n := g.n, compactors := g.compactors }

/-- `GDE.from_string`: restore `k`, `d`, `n` and the compactors, then
recompute `size` and `max_size` from the restored compactors. -/
def GDE.from_string (s : GSer) : GDE :=
  { k := s.k, d := s.d, n := s.n, compactors := s.compactors,
    size := gSumLen s.compactors, max_size := s.k * (s.compactors.length : Int) }

/-- GDE states reachable through completed public operations. -/
inductive GReach : GDE → Prop
  | init (k : Int) : GReach (gInit k)
  | update (g : GDE) (v : List ℝ) (g2 : GDE) : GReach g → GUpdate g v g2 → GReach g2
  | merge (g other g2 : GDE) : GReach g → GReach other → GMerge g other g2 → GReach g2

/-- The loop invariant of the GDE compress loops: the compactor list
stays nonempty and `size` is the sum of the buffer lengths. -/
def GInv (g : GDE) : Prop :=
  g.compactors ≠ [] ∧ g.size = gSumLen g.compactors

/-! ### Concrete GDE runs -/
/-- The all-false coin stream used in concrete runs. -/
def coinsF : Nat → Bool := fun _ => false

/-- `GDE(1)` after one `update([0.0])`: `size = max_size = 1`. -/
def gB1 : GDE :=
  { k := 1, d := some 1, n := 1, size := 1, compactors := [[[(0 : ℝ)]]], max_size := 1 }

/-- `gB1` after a further `update([1.0])` (one compaction happens,
with the shuffle a no-op and the random first sign `+1`). -/
def gB3 : GDE :=
  { k := 1, d := some 1, n := 2, size := 2,
    compactors := [[[(1 : ℝ)]], [[(0 : ℝ)]]], max_size := 2 }

/-- `GDE(5)` merged with `gB3`: the padding to two compactors leaves
`max_size` at the stale value `5` because the compress loop never runs. -/
def gAM : GDE :=
  { k := 5, d := some 1, n := 2, size := 2,
    compactors := [[[(1 : ℝ)]], [[(0 : ℝ)]]], max_size := 5 }

/-! ### Concrete KLL and Req runs -/
/-- `Σ_h 2^h · |compactors[h]|` of a Req sketch. -/
def reqTotalWeight (cs : List RelCompactor) : Nat :=
  ((List.range cs.length).map
    (fun h => 2 ^ h * (cs.getD h default).buf.length)).sum

/-- `KLL(1, c=1)` freshly constructed. -/
def stK0 : KllS :=
  { k := 1, c := 1, lazy := true, alternate := true,
    compactors := [⟨[], 0, 0, true⟩], H := 1, size := 0, maxSize := 2, rng := 0 }

/-- `stK0` after `update(3)`. -/
def stK1 : KllS :=
  { k := 1, c := 1, lazy := true, alternate := true,
    compactors := [⟨[3], 0, 0, true⟩], H := 1, size := 1, maxSize := 2, rng := 0 }

/-- The intermediate state of `update(5)` just before its compress. -/
def stK1b : KllS :=
  { k := 1, c := 1, lazy := true, alternate := true,
    compactors := [⟨[3, 5], 0, 0, true⟩], H := 1, size := 2, maxSize := 2, rng := 0 }

/-- `stK1` after `update(5)`: one compaction has run and the stored
weight is still `2 = N`. -/
def stK2 : KllS :=
  { k := 1, c := 1, lazy := true, alternate := true,
    compactors := [⟨[], 1, 0, true⟩, ⟨[3], 0, 0, true⟩], H := 2, size := 1,
    maxSize := 4, rng := 1 }

/-- A lazy KLL state with two levels at capacity. -/
def stC4 : KllS :=
  { k := 1, c := 1, lazy := true, alternate := true,
    compactors := [⟨[1, 2, 3, 4], 0, 0, true⟩, ⟨[5, 6, 7, 8], 0, 0, true⟩],
    H := 2, size := 8, maxSize := 4, rng := 0 }

/-- `stC4` after one lazy compress: still over capacity, with level 1
still overflowing. -/
def stC4c : KllS :=
  { k := 1, c := 1, lazy := true, alternate := true,
    compactors := [⟨[], 1, 0, true⟩, ⟨[5, 6, 7, 8, 1, 3], 0, 0, true⟩],
    H := 2, size := 6, maxSize := 4, rng := 1 }

/-- `RelativeErrorSketch(4)` freshly constructed. -/
def stRQ0 : ReqSketch :=
  { k := 4, compactors := [freshRel 4 0], H := 1, size := 0, N := 0,
    maxNomSize := 24, rng := 0 }

/-- `stRQ0` after `update(7)`. -/
def stRQ1 : ReqSketch :=
  { k := 4, compactors := [{ freshRel 4 0 with buf := [(7 : Int)] }], H := 1,
    size := 1, N := 1, maxNomSize := 24, rng := 0 }

/-- A compactor at nominal capacity for the C7 witness. -/
def coC7 : RelCompactor :=
  { buf := (List.range 24).map (fun i => (i : Int)), numCompactions := 0,
    state := 0, offset := 0, sectionSize := 4, sectionSizeF := 4,
    numSections := 3, height := 0 }

/-- A small-section compactor at nominal capacity whose schedule
counters have grown past `2^(numSections-1)`, as happens in long runs
once `sectionSize` drops below 4; the code skips the schedule asserts
there. -/
def coC7s : RelCompactor :=
  { buf := (List.range 24).map (fun i => (i : Int)), numCompactions := 40,
    state := 33, offset := 0, sectionSize := 2, sectionSizeF := 2,
    numSections := 6, height := 0 }

/-- `Σ_h 2^h · |compactors[h]|` of a GDE sketch. -/
def gTotalWeight (cs : List (List (List ℝ))) : Nat :=
  ((List.range cs.length).map (fun h => 2 ^ h * (cs.getD h []).length)).sum

/-- Head-recursive stored weight of a GDE compactor list. -/
def gw : List (List (List ℝ)) → Nat
  | [] => 0
  | c :: cs => c.length + 2 * gw cs

/-- The compress loop of `update`/`merge` along a run in which
`first_large_compress` never finds a level at capacity: each iteration
leaves the compactors unchanged and only recomputes `max_size` and
`size`. -/
inductive GWhileNC : GDE → GDE → Prop
  | done (g : GDE) : (g.size : Int) < g.max_size → GWhileNC g g
  | step (g g2 : GDE) :
      g.max_size ≤ (g.size : Int) →
      (∀ c ∈ g.compactors, (c.length : Int) < g.k) →
      GWhileNC { g with
          max_size := g.k * (g.compactors.length : Int),
          size := gSumLen g.compactors } g2 →
      GWhileNC g g2

/-- `GDE.update` along a run without compactions. -/
inductive GUpdateNC : GDE → List ℝ → GDE → Prop
  | mk (g : GDE) (v : List ℝ) (g1 g2 : GDE) :
      (g.d = none ∨ g.d = some v.length) →
      GWhileNC { g with d := some v.length } g1 →
      g2 = { g1 with
          n := g1.n + 1,
          size := g1.size + 1,
          compactors := gExtendAt [v] g1.compactors 0 } →
      GUpdateNC g v g2

/-- `GDE.merge` along a run without compactions. -/
inductive GMergeNC : GDE → GDE → GDE → Prop
  | otherEmpty (g other : GDE) : other.d = none → other.n = 0 → GMergeNC g other g
  | mk (g other : GDE) (dv : Nat) (cs1 : List (List (List ℝ))) (g2 g3 : GDE) :
      other.d = some dv →
      ((g.d = none ∧ g.n = 0) ∨ g.d = some dv) →
      cs1 = gZipExtend (gPad g.compactors other.compactors.length) other.compactors →
      g2 = { g with
          d := some dv,
          compactors := cs1,
          size := gSumLen cs1,
          n := g.n + other.n } →
      GWhileNC g2 g3 →
      GMergeNC g other g3

/-- GDE states reached by public operations during which no compaction
has occurred. -/
inductive GReachNC : GDE → Prop
  | init (k : Int) : GReachNC (gInit k)
  | update (g : GDE) (v : List ℝ) (g2 : GDE) :
      GReachNC g → GUpdateNC g v g2 → GReachNC g2
  | merge (g other g2 : GDE) :
      GReachNC g → GReachNC other → GMergeNC g other g2 → GReachNC g2

/-! ## Theorems -/

theorem everyOther_length {α : Type} (l : List α) :
    (everyOther l).length = (l.length + 1) / 2 := by
  induction l using everyOther.induct with
  | case1 => simp [everyOther]
  | case2 a => simp [everyOther]
  | case3 a b rest ih =>
      simp only [everyOther, List.length_cons, ih]
      omega

theorem everyOther_sublist {α : Type} (l : List α) : (everyOther l).Sublist l := by
  induction l using everyOther.induct with
  | case1 => simp [everyOther]
  | case2 a => simp [everyOther]
  | case3 a b rest ih =>
      simpa [everyOther] using (ih.cons b).cons₂ a

theorem everyOther_getElem {α : Type} (l : List α) (j : Nat)
    (hj : j < (everyOther l).length) (hl : 2 * j < l.length) :
    (everyOther l)[j] = l[2 * j] := by
  induction l using everyOther.induct generalizing j with
  | case1 => simp [everyOther] at hj
  | case2 a =>
      simp [everyOther] at hj
      subst hj
      simp [everyOther]
  | case3 a b rest ih =>
      match j with
      | 0 => simp [everyOther]
      | j + 1 =>
          have h1 : j < (everyOther rest).length := by
            simpa [everyOther] using hj
          have h2 : 2 * j < rest.length := by
            simp at hl; omega
          have := ih j h1 h2
          simp only [everyOther]
          have hidx : 2 * (j + 1) = (2 * j) + 1 + 1 := by omega
          simp [hidx, this]

/-! ### KLL accounting lemmas -/
theorem ksumLen_nil : ksumLen [] = 0 := rfl

theorem ksumLen_cons (c : KCompactor) (cs : List KCompactor) :
    ksumLen (c :: cs) = c.buf.length + ksumLen cs := by
  simp [ksumLen]

theorem ksumLen_append (cs ds : List KCompactor) :
    ksumLen (cs ++ ds) = ksumLen cs + ksumLen ds := by
  simp [ksumLen]

/-- Sum over the list as a sum over indices. -/
theorem ksumLen_eq_range (cs : List KCompactor) :
    ksumLen cs =
      ((List.range cs.length).map
        (fun h => (cs.getD h default).buf.length)).sum := by
  induction cs with
  | nil => rfl
  | cons c cs ih =>
      rw [ksumLen_cons, List.length_cons, List.range_succ_eq_map, List.map_cons,
        List.sum_cons, List.getD_cons_zero, List.map_map, ih]
      rfl

theorem ksumLen_set (cs : List KCompactor) (h : Nat) (c2 : KCompactor)
    (hh : h < cs.length) :
    ksumLen (cs.set h c2) + (cs.getD h default).buf.length =
      ksumLen cs + c2.buf.length := by
  induction cs generalizing h with
  | nil => simp at hh
  | cons c cs ih =>
      cases h with
      | zero => simp [ksumLen_cons]; omega
      | succ h =>
          simp only [List.set_cons_succ, ksumLen_cons, List.getD_cons_succ]
          have := ih h (by simpa using hh)
          omega

theorem ksumLen_extendAt (cs : List KCompactor) (h : Nat) (em : List Int)
    (hh : h < cs.length) :
    ksumLen (extendAt em cs h) = ksumLen cs + em.length := by
  induction cs generalizing h with
  | nil => simp at hh
  | cons c cs ih =>
      cases h with
      | zero => simp [extendAt, ksumLen_cons]; omega
      | succ h =>
          simp only [extendAt, ksumLen_cons]
          have := ih h (by simpa using hh)
          omega

theorem extendAt_oob (cs : List KCompactor) (h : Nat) (em : List Int)
    (hh : cs.length ≤ h) :
    extendAt em cs h = cs := by
  induction cs generalizing h with
  | nil => simp [extendAt]
  | cons c cs ih =>
      cases h with
      | zero => simp at hh
      | succ h => simp [extendAt, ih h (by simpa using hh)]

theorem extendAt_length (cs : List KCompactor) (h : Nat) (em : List Int) :
    (extendAt em cs h).length = cs.length := by
  induction cs generalizing h with
  | nil => simp [extendAt]
  | cons c cs ih =>
      cases h with
      | zero => simp [extendAt]
      | succ h => simp [extendAt, ih]

/-! ### Capacity bounds and the pigeonhole step -/
theorem kllCapacity_ge_two (k : Nat) (c : ℚ) (H h : Nat)
    (hk : 1 ≤ k) (hc : 0 < c) : 2 ≤ kllCapacity k c H h := by
  unfold kllCapacity
  have hpos : (0 : ℚ) < c ^ (H - h - 1) * (k : ℚ) := by
    apply mul_pos (pow_pos hc _)
    exact_mod_cast hk
  have h1 : (1 : ℤ) ≤ ⌈c ^ (H - h - 1) * (k : ℚ)⌉ := Int.ceil_pos.mpr hpos
  omega

theorem kllMaxSizeOf_succ (k : Nat) (c : ℚ) (H : Nat) :
    kllMaxSizeOf k c (H + 1) = kllCapacity k c (H + 1) 0 + kllMaxSizeOf k c H := by
  unfold kllMaxSizeOf
  rw [List.range_succ_eq_map, List.map_cons, List.sum_cons, List.map_map]
  congr 1
  apply congrArg
  apply List.map_congr_left
  intro h _
  show kllCapacity k c (H + 1) (Nat.succ h) = kllCapacity k c H h
  unfold kllCapacity
  have he : H + 1 - Nat.succ h - 1 = H - h - 1 := by omega
  rw [he]

theorem kllMaxSizeOf_lt_succ (k : Nat) (c : ℚ) (H : Nat)
    (hk : 1 ≤ k) (hc : 0 < c) :
    kllMaxSizeOf k c H < kllMaxSizeOf k c (H + 1) := by
  rw [kllMaxSizeOf_succ]
  have := kllCapacity_ge_two k c (H + 1) 0 hk hc
  omega

theorem sum_map_add_one (f : Nat → Nat) (n : Nat) :
    ((List.range n).map (fun g => f g + 1)).sum = ((List.range n).map f).sum + n := by
  induction n with
  | zero => rfl
  | succ n ih =>
      rw [List.range_succ]
      simp only [List.map_append, List.sum_append, List.map_cons, List.sum_cons,
        List.map_nil, List.sum_nil, ih]
      omega

/-- If the total buffer length reaches the sum of the capacities then
some level is at capacity. -/
theorem kll_pigeonhole (cs : List KCompactor) (k : Nat) (c : ℚ) (H : Nat)
    (hH : H = cs.length) (h1 : 1 ≤ cs.length)
    (hge : kllMaxSizeOf k c H ≤ ksumLen cs) :
    ∃ g, g < cs.length ∧ kllCapacity k c H g ≤ (cs.getD g default).buf.length := by
  by_contra hno
  push_neg at hno
  have hlt : ksumLen cs + cs.length ≤ kllMaxSizeOf k c H := by
    rw [ksumLen_eq_range, ← sum_map_add_one]
    subst hH
    unfold kllMaxSizeOf
    apply List.sum_le_sum
    intro g hg
    have hglt : g < cs.length := List.mem_range.mp hg
    have := hno g hglt
    omega
  omega

/-! ### Length effects of a single KLL compaction -/
theorem kll_compact_snd_len (co : KCompactor) (coin : Bool) :
    ((co.compact coin).2).buf.length = co.buf.length % 2 := by
  unfold KCompactor.compact
  have hlen : (co.buf.insertionSort (fun a b => a ≤ b)).length = co.buf.length :=
    List.length_insertionSort ..
  by_cases hodd : (co.buf.insertionSort (fun a b => a ≤ b)).length % 2 = 1
  · simp only [hodd, if_pos, if_true, List.length_drop]
    omega
  · simp only [hodd, if_false, ite_false, List.length_nil]
    omega

theorem kll_compact_fst_len (co : KCompactor) (coin : Bool) :
    ((co.compact coin).1).length = co.buf.length / 2 := by
  unfold KCompactor.compact
  have hlen : (co.buf.insertionSort (fun a b => a ≤ b)).length = co.buf.length :=
    List.length_insertionSort ..
  have hoff : (if co.numCompaction % 2 = 1 ∧ co.alternate
      then 1 - co.offset else (if coin then 1 else 0)) ≤ 1 := by
    split
    · omega
    · split <;> omega
  set off := if co.numCompaction % 2 = 1 ∧ co.alternate
      then 1 - co.offset else (if coin then 1 else 0) with hoffdef
  simp only [everyOther_length, List.length_drop]
  by_cases hodd : (co.buf.insertionSort (fun a b => a ≤ b)).length % 2 = 1
  · simp only [hodd, if_pos, if_true, List.length_dropLast]
    omega
  · simp only [hodd, if_false, ite_false]
    omega

theorem KBase.c_pos {st : KllS} (hb : KBase st) : 0 < st.c :=
  lt_trans (by norm_num) hb.2.2.2.2.1

theorem kll_grow_KBase {st : KllS} (hb : KBase st) :
    KBase st.grow ∧ st.grow.size = st.size ∧ st.maxSize ≤ st.grow.maxSize ∧
    st.grow.k = st.k ∧ st.grow.c = st.c ∧ st.grow.lazy = st.lazy ∧
    st.grow.H = st.H + 1 := by
  obtain ⟨hH, hmax, hsize, hk, hc1, hc2, hH1⟩ := hb
  have hcpos : 0 < st.c := lt_trans (by norm_num) hc1
  have hcseq : st.grow.compactors
      = st.compactors ++ [(⟨[], 0, 0, st.alternate⟩ : KCompactor)] := rfl
  have hws : ksumLen st.grow.compactors = ksumLen st.compactors := by
    rw [hcseq, ksumLen_append]; rfl
  have hlen : st.grow.compactors.length = st.compactors.length + 1 := by
    rw [hcseq]; simp
  have hHg0 : st.grow.H
      = (st.compactors ++ [(⟨[], 0, 0, st.alternate⟩ : KCompactor)]).length := rfl
  have hHg : st.grow.H = st.compactors.length + 1 := by
    rw [hHg0]; simp
  have hmax0 : st.grow.maxSize = kllMaxSizeOf st.k st.c
      (st.compactors ++ [(⟨[], 0, 0, st.alternate⟩ : KCompactor)]).length := rfl
  have hmaxg : st.grow.maxSize = kllMaxSizeOf st.k st.c (st.compactors.length + 1) := by
    rw [hmax0, List.length_append, List.length_singleton]
  have hkeq : st.grow.k = st.k := rfl
  have hceq : st.grow.c = st.c := rfl
  have hszeq : st.grow.size = st.size := rfl
  refine ⟨⟨?_, ?_, ?_, hk, hc1, hc2, ?_⟩, rfl, ?_, rfl, rfl, rfl, ?_⟩
  · exact hHg.trans hlen.symm
  · rw [hkeq, hceq, hHg, hmaxg]
  · rw [hszeq, hws]; exact hsize
  · rw [hHg]; omega
  · rw [hmaxg, hmax, hH]
    exact le_of_lt (kllMaxSizeOf_lt_succ st.k st.c st.compactors.length hk hcpos)
  · rw [hHg, hH]

theorem kll_compactCore_spec (coins : Nat → Bool) (st1 : KllS) (h : Nat)
    (hidx2 : h + 1 < st1.compactors.length) :
    (kllCompactCore coins st1 h).compactors.length = st1.compactors.length ∧
    (kllCompactCore coins st1 h).size = ksumLen (kllCompactCore coins st1 h).compactors ∧
    (kllCompactCore coins st1 h).size
        + (st1.compactors.getD h default).buf.length / 2 = ksumLen st1.compactors ∧
    (kllCompactCore coins st1 h).k = st1.k ∧
    (kllCompactCore coins st1 h).c = st1.c ∧
    (kllCompactCore coins st1 h).lazy = st1.lazy ∧
    (kllCompactCore coins st1 h).H = st1.H ∧
    (kllCompactCore coins st1 h).maxSize = st1.maxSize := by
  have hidx : h < st1.compactors.length := by omega
  set pr := (st1.compactors.getD h default).compact (coins st1.rng) with hpr
  set cs1 := st1.compactors.set h pr.2 with hcs1
  set cs2 := extendAt pr.1 cs1 (h + 1) with hcs2
  have hlen1 : cs1.length = st1.compactors.length := by simp [hcs1]
  have hlen2 : cs2.length = cs1.length := extendAt_length cs1 (h + 1) pr.1
  have hsum1 : ksumLen cs1 + (st1.compactors.getD h default).buf.length
      = ksumLen st1.compactors + pr.2.buf.length := ksumLen_set st1.compactors h pr.2 hidx
  have hsum2 : ksumLen cs2 = ksumLen cs1 + pr.1.length :=
    ksumLen_extendAt cs1 (h + 1) pr.1 (by omega)
  have hsnd : pr.2.buf.length = (st1.compactors.getD h default).buf.length % 2 :=
    kll_compact_snd_len _ _
  have hfst : pr.1.length = (st1.compactors.getD h default).buf.length / 2 :=
    kll_compact_fst_len _ _
  refine ⟨?_, rfl, ?_, rfl, rfl, rfl, rfl, rfl⟩
  · show cs2.length = st1.compactors.length
    omega
  · show ksumLen cs2 + (st1.compactors.getD h default).buf.length / 2
        = ksumLen st1.compactors
    omega

theorem kll_compactAt_spec (coins : Nat → Bool) (st : KllS) (h : Nat)
    (hb : KBase st) (hidx : h < st.compactors.length) :
    KBase (kllCompactAt coins st h) ∧
    (kllCompactAt coins st h).size
        + (st.compactors.getD h default).buf.length / 2 = st.size ∧
    st.maxSize ≤ (kllCompactAt coins st h).maxSize ∧
    (kllCompactAt coins st h).k = st.k ∧
    (kllCompactAt coins st h).c = st.c ∧
    (kllCompactAt coins st h).lazy = st.lazy := by
  obtain ⟨hH, hmax, hsize, hk, hc1, hc2, hH1⟩ := hb
  unfold kllCompactAt
  by_cases hgrow : h + 1 ≥ st.H
  · rw [if_pos hgrow]
    obtain ⟨hb1, hsz1, hmx1, hk1, hc1f, hlz1, hH1f⟩ :=
      kll_grow_KBase ⟨hH, hmax, hsize, hk, hc1, hc2, hH1⟩
    obtain ⟨hB1, hB2, hB3, hB4, hB5, hB6, hB7⟩ := hb1
    have hleng : st.grow.compactors.length = st.compactors.length + 1 := by
      rw [← hB1, hH1f, hH]
    have hidx2 : h + 1 < st.grow.compactors.length := by omega
    obtain ⟨hc2l, hc2s, hc2bal, hc2k, hc2c, hc2lz, hc2H, hc2m⟩ :=
      kll_compactCore_spec coins st.grow h hidx2
    have hgd : st.grow.compactors.getD h default = st.compactors.getD h default := by
      show (st.compactors ++ [(⟨[], 0, 0, st.alternate⟩ : KCompactor)]).getD h default
          = st.compactors.getD h default
      exact List.getD_append _ _ _ _ hidx
    refine ⟨⟨?_, ?_, hc2s, ?_, ?_, ?_, ?_⟩, ?_, ?_, ?_, ?_, ?_⟩
    · rw [hc2H, hc2l, hB1]
    · rw [hc2m, hc2k, hc2c, hc2H, hB2]
    · rw [hc2k, hk1]; exact hk
    · rw [hc2c, hc1f]; exact hc1
    · rw [hc2c, hc1f]; exact hc2
    · rw [hc2H, hH1f]; omega
    · rw [hgd] at hc2bal
      have : ksumLen st.grow.compactors = ksumLen st.compactors := by
        show ksumLen (st.compactors ++ [⟨[], 0, 0, st.alternate⟩]) = ksumLen st.compactors
        rw [ksumLen_append]; rfl
      rw [this] at hc2bal
      rw [hsize]
      exact hc2bal
    · rw [hc2m]; exact hmx1
    · rw [hc2k, hk1]
    · rw [hc2c, hc1f]
    · rw [hc2lz, hlz1]
  · rw [if_neg hgrow]
    have hidx2 : h + 1 < st.compactors.length := by
      rw [← hH]; omega
    obtain ⟨hc2l, hc2s, hc2bal, hc2k, hc2c, hc2lz, hc2H, hc2m⟩ :=
      kll_compactCore_spec coins st h hidx2
    refine ⟨⟨?_, ?_, hc2s, ?_, ?_, ?_, ?_⟩, ?_, ?_, ?_, ?_, ?_⟩
    · rw [hc2H, hc2l, hH]
    · rw [hc2m, hc2k, hc2c, hc2H, hmax]
    · rw [hc2k]; exact hk
    · rw [hc2c]; exact hc1
    · rw [hc2c]; exact hc2
    · rw [hc2H]; exact hH1
    · rw [hsize]; exact hc2bal
    · rw [hc2m]
    · rw [hc2k]
    · rw [hc2c]
    · rw [hc2lz]

theorem kll_default_buf_len : (default : KCompactor).buf.length = 0 := rfl

/-- `kllCompressAux` preserves the bookkeeping invariant, never
increases `size`, and never decreases `maxSize`. -/
theorem kllCompressAux_acc (coins : Nat → Bool) :
    ∀ (n : Nat) (st : KllS) (h : Nat), KBase st →
      KBase (kllCompressAux coins st h n) ∧
      (kllCompressAux coins st h n).size ≤ st.size ∧
      st.maxSize ≤ (kllCompressAux coins st h n).maxSize ∧
      (kllCompressAux coins st h n).k = st.k ∧
      (kllCompressAux coins st h n).c = st.c ∧
      (kllCompressAux coins st h n).lazy = st.lazy
  | 0, st, h, hb => ⟨hb, le_refl _, le_refl _, rfl, rfl, rfl⟩
  | n + 1, st, h, hb => by
      simp only [kllCompressAux]
      by_cases hcond :
          (st.compactors.getD h default).buf.length ≥ kllCapacity st.k st.c st.H h
      · rw [if_pos hcond]
        have hcap2 : 2 ≤ kllCapacity st.k st.c st.H h :=
          kllCapacity_ge_two _ _ _ _ hb.2.2.2.1 hb.c_pos
        have hidx : h < st.compactors.length := by
          by_contra hni
          push_neg at hni
          rw [List.getD_eq_default _ _ (by omega), kll_default_buf_len] at hcond
          omega
        obtain ⟨hb2, hbal, hmx, hk2, hc2, hlz2⟩ := kll_compactAt_spec coins st h hb hidx
        by_cases hlazy : (kllCompactAt coins st h).lazy
        · rw [if_pos hlazy]
          exact ⟨hb2, by omega, hmx, hk2, hc2, hlz2⟩
        · rw [if_neg hlazy]
          obtain ⟨hb3, hsz3, hmx3, hk3, hc3, hlz3⟩ :=
            kllCompressAux_acc coins n (kllCompactAt coins st h) (h + 1) hb2
          exact ⟨hb3, by omega, le_trans hmx hmx3, hk3.trans hk2, hc3.trans hc2,
            hlz3.trans hlz2⟩
      · rw [if_neg hcond]
        exact kllCompressAux_acc coins n st (h + 1) hb

/-- If some level in the remaining loop range is at capacity, the
compress loop strictly shrinks `size`. -/
theorem kllCompressAux_progress (coins : Nat → Bool) :
    ∀ (n : Nat) (st : KllS) (h : Nat), KBase st →
      (∃ g, h ≤ g ∧ g < h + n ∧
        kllCapacity st.k st.c st.H g ≤ (st.compactors.getD g default).buf.length) →
      (kllCompressAux coins st h n).size < st.size
  | 0, _, h, _, ⟨g, hg1, hg2, _⟩ => absurd hg2 (by omega)
  | n + 1, st, h, hb, ⟨g, hg1, hg2, hgc⟩ => by
      simp only [kllCompressAux]
      by_cases hcond :
          (st.compactors.getD h default).buf.length ≥ kllCapacity st.k st.c st.H h
      · rw [if_pos hcond]
        have hcap2 : 2 ≤ kllCapacity st.k st.c st.H h :=
          kllCapacity_ge_two _ _ _ _ hb.2.2.2.1 hb.c_pos
        have hidx : h < st.compactors.length := by
          by_contra hni
          push_neg at hni
          rw [List.getD_eq_default _ _ (by omega), kll_default_buf_len] at hcond
          omega
        obtain ⟨hb2, hbal, hmx, _, _, _⟩ := kll_compactAt_spec coins st h hb hidx
        have hdec : (kllCompactAt coins st h).size < st.size := by
          have : 1 ≤ (st.compactors.getD h default).buf.length / 2 := by omega
          omega
        by_cases hlazy : (kllCompactAt coins st h).lazy
        · rw [if_pos hlazy]; exact hdec
        · rw [if_neg hlazy]
          obtain ⟨_, hsz3, _, _, _, _⟩ :=
            kllCompressAux_acc coins n (kllCompactAt coins st h) (h + 1) hb2
          omega
      · rw [if_neg hcond]
        have hne : g ≠ h := fun he => hcond (he ▸ hgc)
        exact kllCompressAux_progress coins n st (h + 1) hb ⟨g, by omega, by omega, hgc⟩

theorem kll_compress_acc (coins : Nat → Bool) (st : KllS) (hb : KBase st) :
    KBase (st.compress coins) ∧ (st.compress coins).size ≤ st.size ∧
    st.maxSize ≤ (st.compress coins).maxSize ∧
    (st.compress coins).k = st.k ∧ (st.compress coins).c = st.c ∧
    (st.compress coins).lazy = st.lazy :=
  kllCompressAux_acc coins st.compactors.length st 0 hb

theorem kll_compress_progress (coins : Nat → Bool) (st : KllS) (hb : KBase st)
    (hge : st.maxSize ≤ st.size) : (st.compress coins).size < st.size := by
  obtain ⟨hH, hmax, hsize, hk, hc1, hc2, hH1⟩ := hb
  obtain ⟨g, hg, hcap⟩ := kll_pigeonhole st.compactors st.k st.c st.H hH
    (by omega) (by rw [← hmax, ← hsize]; exact hge)
  exact kllCompressAux_progress coins st.compactors.length st 0
    ⟨hH, hmax, hsize, hk, hc1, hc2, hH1⟩ ⟨g, by omega, by omega, hcap⟩

/-- `KLL.update` keeps the invariant and its trailing
`assert(self.size < self.maxSize)` holds. -/
theorem kll_update_KBase (coins : Nat → Bool) (st : KllS) (x : Int)
    (hb : KBase st) (hlt : st.size < st.maxSize) :
    KBase (st.update coins x) ∧
    (st.update coins x).size < (st.update coins x).maxSize := by
  obtain ⟨hH, hmax, hsize, hk, hc1, hc2, hH1⟩ := hb
  have hlen0 : 0 < st.compactors.length := by omega
  have hsum : ksumLen (extendAt [x] st.compactors 0) = ksumLen st.compactors + 1 :=
    ksumLen_extendAt st.compactors 0 [x] hlen0
  have hlencs : (extendAt [x] st.compactors 0).length = st.compactors.length :=
    extendAt_length st.compactors 0 [x]
  have hb1 : KBase
      { st with compactors := extendAt [x] st.compactors 0, size := st.size + 1 } := by
    refine ⟨?_, hmax, ?_, hk, hc1, hc2, hH1⟩
    · show st.H = (extendAt [x] st.compactors 0).length
      rw [hlencs]; exact hH
    · show st.size + 1 = ksumLen (extendAt [x] st.compactors 0)
      rw [hsum, hsize]
  set st1 : KllS :=
    { st with compactors := extendAt [x] st.compactors 0, size := st.size + 1 } with hst1
  have hupd : KllS.update coins st x
      = if st1.size ≥ st1.maxSize then st1.compress coins else st1 := rfl
  have hsz1 : st1.size = st.size + 1 := rfl
  have hmx1 : st1.maxSize = st.maxSize := rfl
  rw [hupd]
  by_cases hge : st1.size ≥ st1.maxSize
  · rw [if_pos hge]
    obtain ⟨hb2, hsz2, hmx2, _, _, _⟩ := kll_compress_acc coins st1 hb1
    have hprog := kll_compress_progress coins st1 hb1 (by omega)
    exact ⟨hb2, by omega⟩
  · rw [if_neg hge]
    exact ⟨hb1, by omega⟩

theorem kw_append_empty (cs : List KCompactor) (a : Bool) :
    kw (cs ++ [⟨[], 0, 0, a⟩]) = kw cs := by
  induction cs with
  | nil => rfl
  | cons c cs ih => simp [kw, ih]

theorem kllGrowUntil_spec (target : Nat) :
    ∀ (fuel : Nat) (st : KllS), KBase st → target ≤ st.H + fuel →
      KBase (kllGrowUntil target fuel st) ∧
      target ≤ (kllGrowUntil target fuel st).H ∧
      (kllGrowUntil target fuel st).k = st.k ∧
      (kllGrowUntil target fuel st).c = st.c ∧
      (kllGrowUntil target fuel st).lazy = st.lazy ∧
      ksumLen (kllGrowUntil target fuel st).compactors = ksumLen st.compactors ∧
      kw (kllGrowUntil target fuel st).compactors = kw st.compactors
  | 0, st, hb, hle => by
      have he : kllGrowUntil target 0 st = st := rfl
      rw [he]
      exact ⟨hb, by omega, rfl, rfl, rfl, rfl, rfl⟩
  | fuel + 1, st, hb, hle => by
      have he : kllGrowUntil target (fuel + 1) st
          = if st.H < target then kllGrowUntil target fuel st.grow else st := rfl
      rw [he]
      by_cases hlt : st.H < target
      · rw [if_pos hlt]
        obtain ⟨hbg, _, _, hkg, hcg, hlzg, hHg⟩ := kll_grow_KBase hb
        have hsg : ksumLen st.grow.compactors = ksumLen st.compactors := by
          show ksumLen (st.compactors ++ [⟨[], 0, 0, st.alternate⟩]) = _
          rw [ksumLen_append]; rfl
        have hwg : kw st.grow.compactors = kw st.compactors := by
          show kw (st.compactors ++ [⟨[], 0, 0, st.alternate⟩]) = _
          exact kw_append_empty _ _
        obtain ⟨hb2, ht2, hk2, hc2, hlz2, hs2, hw2⟩ :=
          kllGrowUntil_spec target fuel st.grow hbg (by omega)
        exact ⟨hb2, ht2, hk2.trans hkg, hc2.trans hcg, hlz2.trans hlzg,
          hs2.trans hsg, hw2.trans hwg⟩
      · rw [if_neg hlt]
        exact ⟨hb, by omega, rfl, rfl, rfl, rfl, rfl⟩

theorem kllExtendLevels_length :
    ∀ (cs os : List KCompactor), os.length ≤ cs.length →
      (kllExtendLevels cs os).length = cs.length
  | cs, [], _ => by simp [kllExtendLevels]
  | [], _ :: _, h => by simp at h
  | c :: cs, o :: os, h => by
      simp only [kllExtendLevels, List.length_cons]
      rw [kllExtendLevels_length cs os (by simpa using h)]

theorem ksumLen_kllExtendLevels :
    ∀ (cs os : List KCompactor), os.length ≤ cs.length →
      ksumLen (kllExtendLevels cs os) = ksumLen cs + ksumLen os
  | cs, [], _ => by simp [kllExtendLevels, ksumLen]
  | [], _ :: _, h => by simp at h
  | c :: cs, o :: os, h => by
      simp only [kllExtendLevels, ksumLen_cons]
      rw [ksumLen_kllExtendLevels cs os (by simpa using h)]
      simp
      omega

theorem kw_kllExtendLevels :
    ∀ (cs os : List KCompactor), os.length ≤ cs.length →
      kw (kllExtendLevels cs os) = kw cs + kw os
  | cs, [], _ => by simp [kllExtendLevels, kw]
  | [], _ :: _, h => by simp at h
  | c :: cs, o :: os, h => by
      simp only [kllExtendLevels, kw]
      rw [kw_kllExtendLevels cs os (by simpa using h)]
      simp
      omega

theorem kllMergeLoop_KBase (coins : Nat → Bool) :
    ∀ (fuel : Nat) (st : KllS), KBase st → st.size < fuel →
      KBase (kllMergeLoop coins fuel st) ∧
      (kllMergeLoop coins fuel st).size < (kllMergeLoop coins fuel st).maxSize
  | 0, st, _, hlt => absurd hlt (by omega)
  | fuel + 1, st, hb, hlt => by
      simp only [kllMergeLoop]
      by_cases hge : st.size ≥ st.maxSize
      · rw [if_pos hge]
        have hprog := kll_compress_progress coins st hb (by omega)
        obtain ⟨hb2, _, _, _, _, _⟩ := kll_compress_acc coins st hb
        exact kllMergeLoop_KBase coins fuel _ hb2 (by omega)
      · rw [if_neg hge]
        exact ⟨hb, by omega⟩

/-- `KLL.merge` keeps the invariant and its trailing
`assert(self.size < self.maxSize)` holds. -/
theorem kll_merge_KBase (coins : Nat → Bool) (st other : KllS)
    (hb : KBase st) (hbo : KBase other) :
    KBase (st.merge coins other) ∧
    (st.merge coins other).size < (st.merge coins other).maxSize := by
  obtain ⟨hb1, hH1, hk1, hc1, hlz1, hs1, hw1⟩ :=
    kllGrowUntil_spec other.H other.H st hb (by omega)
  set st1 := kllGrowUntil other.H other.H st with hst1
  set cs := kllExtendLevels st1.compactors other.compactors with hcs
  have hoslen : other.compactors.length ≤ st1.compactors.length := by
    have := hbo.1
    have := hb1.1
    omega
  have hcslen : cs.length = st1.compactors.length :=
    kllExtendLevels_length st1.compactors other.compactors hoslen
  set st2 : KllS := { st1 with compactors := cs, size := ksumLen cs } with hst2
  have hb2 : KBase st2 := by
    obtain ⟨hbH, hbmax, hbsize, hbk, hbc1, hbc2, hbHge⟩ := hb1
    exact ⟨by show st1.H = cs.length; omega, hbmax, rfl, hbk, hbc1, hbc2, hbHge⟩
  have hmerge : st.merge coins other = kllMergeLoop coins (st2.size + 1) st2 := rfl
  rw [hmerge]
  exact kllMergeLoop_KBase coins (st2.size + 1) st2 hb2 (by omega)

/-- `KLL.__init__` with accepted parameters establishes the invariant. -/
theorem kllInit_ok {k : Int} {c : ℚ} {lz alt : Bool} {st : KllS}
    (h : kllInit k c lz alt = .ok st) :
    KBase st ∧ st.size < st.maxSize ∧
    st.compactors = [⟨[], 0, 0, alt⟩] ∧ st.size = 0 ∧ st.k = k.toNat ∧
    st.H = 1 := by
  unfold kllInit at h
  by_cases h1 : k ≤ 0
  · rw [if_pos h1] at h; exact absurd h (by simp)
  rw [if_neg h1] at h
  by_cases h2 : c ≤ 1 / 2 ∨ 1 < c
  · rw [if_pos h2] at h; exact absurd h (by simp)
  rw [if_neg h2] at h
  push_neg at h1 h2
  obtain ⟨hc1, hc2⟩ := h2
  injection h with hst
  subst hst
  have hm1 : kllMaxSizeOf k.toNat c 1 = kllCapacity k.toNat c 1 0 := by
    simp [kllMaxSizeOf, List.range_succ]
  have hcap := kllCapacity_ge_two k.toNat c 1 0 (by omega) (lt_trans (by norm_num) hc1)
  refine ⟨⟨rfl, rfl, rfl, by show 1 ≤ k.toNat; omega, hc1, hc2,
    by norm_num [KllS.grow]⟩, ?_, rfl, rfl, rfl, rfl⟩
  show 0 < kllMaxSizeOf k.toNat c 1
  rw [hm1]
  omega

/-- Every reachable KLL state satisfies the bookkeeping invariant and
the size constraint. -/
theorem kll_reach_inv : ∀ {st : KllS} {n : Nat}, KReach st n →
    KBase st ∧ st.size < st.maxSize := by
  intro st n h
  induction h with
  | init k c lz alt st hok =>
      obtain ⟨hb, hlt, _, _, _⟩ := kllInit_ok hok
      exact ⟨hb, hlt⟩
  | update coins st n x _ ih => exact kll_update_KBase coins st x ih.1 ih.2
  | merge coins st n other m _ _ ih iho => exact kll_merge_KBase coins st other ih.1 iho.1

/-! ### KLL total weight is preserved by compaction -/
theorem kw_extendAt (em : List Int) :
    ∀ (cs : List KCompactor) (g : Nat), g < cs.length →
      kw (extendAt em cs g) = kw cs + 2 ^ g * em.length
  | [], g, hg => by simp at hg
  | c :: cs, 0, _ => by simp [extendAt, kw]; ring
  | c :: cs, g + 1, hg => by
      simp only [extendAt, kw]
      rw [kw_extendAt em cs g (by simpa using hg)]
      ring

theorem kw_set :
    ∀ (cs : List KCompactor) (h : Nat) (c2 : KCompactor), h < cs.length →
      kw (cs.set h c2) + 2 ^ h * (cs.getD h default).buf.length
        = kw cs + 2 ^ h * c2.buf.length
  | [], h, c2, hh => by simp at hh
  | c :: cs, 0, c2, _ => by simp [kw]; ring
  | c :: cs, h + 1, c2, hh => by
      simp only [List.set_cons_succ, kw, List.getD_cons_succ]
      have := kw_set cs h c2 (by simpa using hh)
      have hp1 : 2 ^ (h + 1) * (cs.getD h default).buf.length
          = 2 * (2 ^ h * (cs.getD h default).buf.length) := by ring
      have hp2 : 2 ^ (h + 1) * c2.buf.length = 2 * (2 ^ h * c2.buf.length) := by ring
      rw [hp1, hp2]
      omega

theorem kw_compactCore (coins : Nat → Bool) (st1 : KllS) (h : Nat)
    (hidx2 : h + 1 < st1.compactors.length) :
    kw (kllCompactCore coins st1 h).compactors = kw st1.compactors := by
  have hidx : h < st1.compactors.length := by omega
  set pr := (st1.compactors.getD h default).compact (coins st1.rng) with hpr
  set L := (st1.compactors.getD h default).buf.length with hL
  have hsnd : pr.2.buf.length = L % 2 := kll_compact_snd_len _ _
  have hfst : pr.1.length = L / 2 := kll_compact_fst_len _ _
  have h1 : kw (st1.compactors.set h pr.2) + 2 ^ h * L
      = kw st1.compactors + 2 ^ h * (L % 2) := by
    have := kw_set st1.compactors h pr.2 hidx
    rw [hsnd] at this
    exact this
  have h2 : kw (extendAt pr.1 (st1.compactors.set h pr.2) (h + 1))
      = kw (st1.compactors.set h pr.2) + 2 ^ (h + 1) * (L / 2) := by
    have := kw_extendAt pr.1 (st1.compactors.set h pr.2) (h + 1)
      (by rw [List.length_set]; exact hidx2)
    rw [hfst] at this
    exact this
  have hbal : 2 ^ h * (L % 2) + 2 ^ (h + 1) * (L / 2) = 2 ^ h * L := by
    have hL2 : L % 2 + 2 * (L / 2) = L := by omega
    calc 2 ^ h * (L % 2) + 2 ^ (h + 1) * (L / 2)
        = 2 ^ h * (L % 2 + 2 * (L / 2)) := by ring
      _ = 2 ^ h * L := by rw [hL2]
  show kw (extendAt pr.1 (st1.compactors.set h pr.2) (h + 1)) = kw st1.compactors
  rw [h2]
  omega

theorem kw_compactAt (coins : Nat → Bool) (st : KllS) (h : Nat)
    (hb : KBase st) (hidx : h < st.compactors.length) :
    kw (kllCompactAt coins st h).compactors = kw st.compactors := by
  obtain ⟨hH, hmax, hsize, hk, hc1, hc2, hH1⟩ := hb
  unfold kllCompactAt
  by_cases hgrow : h + 1 ≥ st.H
  · rw [if_pos hgrow]
    have hleng : st.grow.compactors.length = st.compactors.length + 1 := by
      show (st.compactors ++ [(⟨[], 0, 0, st.alternate⟩ : KCompactor)]).length = _
      simp
    have hkw := kw_compactCore coins st.grow h (by omega)
    rw [hkw]
    show kw (st.compactors ++ [⟨[], 0, 0, st.alternate⟩]) = kw st.compactors
    exact kw_append_empty _ _
  · rw [if_neg hgrow]
    exact kw_compactCore coins st h (by omega)

theorem kllCompressAux_kw (coins : Nat → Bool) :
    ∀ (n : Nat) (st : KllS) (h : Nat), KBase st →
      kw (kllCompressAux coins st h n).compactors = kw st.compactors
  | 0, st, h, _ => rfl
  | n + 1, st, h, hb => by
      simp only [kllCompressAux]
      by_cases hcond :
          (st.compactors.getD h default).buf.length ≥ kllCapacity st.k st.c st.H h
      · rw [if_pos hcond]
        have hcap2 : 2 ≤ kllCapacity st.k st.c st.H h :=
          kllCapacity_ge_two _ _ _ _ hb.2.2.2.1 hb.c_pos
        have hidx : h < st.compactors.length := by
          by_contra hni
          push_neg at hni
          rw [List.getD_eq_default _ _ (by omega), kll_default_buf_len] at hcond
          omega
        obtain ⟨hb2, _, _, _, _, _⟩ := kll_compactAt_spec coins st h hb hidx
        have hkwa := kw_compactAt coins st h hb hidx
        by_cases hlazy : (kllCompactAt coins st h).lazy
        · rw [if_pos hlazy]; exact hkwa
        · rw [if_neg hlazy]
          rw [kllCompressAux_kw coins n (kllCompactAt coins st h) (h + 1) hb2]
          exact hkwa
      · rw [if_neg hcond]
        exact kllCompressAux_kw coins n st (h + 1) hb

theorem kll_compress_kw (coins : Nat → Bool) (st : KllS) (hb : KBase st) :
    kw (st.compress coins).compactors = kw st.compactors :=
  kllCompressAux_kw coins st.compactors.length st 0 hb

theorem kll_update_kw (coins : Nat → Bool) (st : KllS) (x : Int) (hb : KBase st) :
    kw (st.update coins x).compactors = kw st.compactors + 1 := by
  obtain ⟨hH, hmax, hsize, hk, hc1, hc2, hH1⟩ := hb
  have hlen0 : 0 < st.compactors.length := by omega
  set st1 : KllS :=
    { st with compactors := extendAt [x] st.compactors 0, size := st.size + 1 } with hst1
  have hb1 : KBase st1 := by
    refine ⟨?_, hmax, ?_, hk, hc1, hc2, hH1⟩
    · show st.H = (extendAt [x] st.compactors 0).length
      rw [extendAt_length]; exact hH
    · show st.size + 1 = ksumLen (extendAt [x] st.compactors 0)
      rw [ksumLen_extendAt st.compactors 0 [x] hlen0, hsize, List.length_singleton]
  have hkw1 : kw st1.compactors = kw st.compactors + 1 := by
    show kw (extendAt [x] st.compactors 0) = kw st.compactors + 1
    rw [kw_extendAt [x] st.compactors 0 hlen0]
    simp
  have hupd : KllS.update coins st x
      = if st1.size ≥ st1.maxSize then st1.compress coins else st1 := rfl
  rw [hupd]
  by_cases hge : st1.size ≥ st1.maxSize
  · rw [if_pos hge, kll_compress_kw coins st1 hb1, hkw1]
  · rw [if_neg hge, hkw1]

theorem kllMergeLoop_kw (coins : Nat → Bool) :
    ∀ (fuel : Nat) (st : KllS), KBase st →
      kw (kllMergeLoop coins fuel st).compactors = kw st.compactors
  | 0, st, _ => rfl
  | fuel + 1, st, hb => by
      simp only [kllMergeLoop]
      by_cases hge : st.size ≥ st.maxSize
      · rw [if_pos hge]
        obtain ⟨hb2, _, _, _, _, _⟩ := kll_compress_acc coins st hb
        rw [kllMergeLoop_kw coins fuel _ hb2]
        exact kll_compress_kw coins st hb
      · rw [if_neg hge]

theorem kll_merge_kw (coins : Nat → Bool) (st other : KllS)
    (hb : KBase st) (hbo : KBase other) :
    kw (st.merge coins other).compactors = kw st.compactors + kw other.compactors := by
  obtain ⟨hb1, hH1, hk1, hc1, hlz1, hs1, hw1⟩ :=
    kllGrowUntil_spec other.H other.H st hb (by omega)
  set st1 := kllGrowUntil other.H other.H st with hst1
  set cs := kllExtendLevels st1.compactors other.compactors with hcs
  have hoslen : other.compactors.length ≤ st1.compactors.length := by
    have := hbo.1
    have := hb1.1
    omega
  set st2 : KllS := { st1 with compactors := cs, size := ksumLen cs } with hst2
  have hb2 : KBase st2 := by
    obtain ⟨hbH, hbmax, hbsize, hbk, hbc1, hbc2, hbHge⟩ := hb1
    have hcslen : cs.length = st1.compactors.length :=
      kllExtendLevels_length st1.compactors other.compactors hoslen
    exact ⟨by show st1.H = cs.length; omega, hbmax, rfl, hbk, hbc1, hbc2, hbHge⟩
  have hmerge : st.merge coins other = kllMergeLoop coins (st2.size + 1) st2 := rfl
  rw [hmerge, kllMergeLoop_kw coins (st2.size + 1) st2 hb2]
  show kw cs = kw st.compactors + kw other.compactors
  rw [kw_kllExtendLevels st1.compactors other.compactors hoslen, hw1]

/-- The stored weight of a reachable KLL sketch equals the number of
stream items fed in: KLL compactions preserve total weight exactly. -/
theorem kll_reach_kw : ∀ {st : KllS} {n : Nat}, KReach st n → kw st.compactors = n := by
  intro st n h
  induction h with
  | init k c lz alt st hok =>
      obtain ⟨_, _, hcs, _, _, _⟩ := kllInit_ok hok
      rw [hcs]; rfl
  | update coins st n x hr ih =>
      rw [kll_update_kw coins st x (kll_reach_inv hr).1, ih]
  | merge coins st n other m hr hro ih iho =>
      rw [kll_merge_kw coins st other (kll_reach_inv hr).1 (kll_reach_inv hro).1, ih, iho]

theorem sum_map_double (g : Nat → Nat) (n : Nat) :
    ((List.range n).map (fun h => 2 * g h)).sum = 2 * ((List.range n).map g).sum := by
  induction n with
  | zero => rfl
  | succ n ih =>
      rw [List.range_succ]
      simp only [List.map_append, List.sum_append, List.map_cons, List.sum_cons,
        List.map_nil, List.sum_nil, ih]
      ring

theorem kllTotalWeight_eq_kw : ∀ cs : List KCompactor, kllTotalWeight cs = kw cs := by
  intro cs
  induction cs with
  | nil => rfl
  | cons c cs ih =>
      unfold kllTotalWeight kw
      rw [List.length_cons, List.range_succ_eq_map, List.map_cons, List.sum_cons,
        List.map_map]
      have hmap : ((List.range cs.length).map
            ((fun h => 2 ^ h * ((c :: cs).getD h default).buf.length) ∘ Nat.succ))
          = (List.range cs.length).map
            (fun h => 2 * (2 ^ h * (cs.getD h default).buf.length)) := by
        apply List.map_congr_left
        intro g _
        show 2 ^ (g + 1) * ((c :: cs).getD (g + 1) default).buf.length = _
        rw [List.getD_cons_succ]
        ring
      rw [hmap, sum_map_double, ← ih]
      unfold kllTotalWeight
      simp

/-! ### Single-compaction behaviour of the KLL compactor -/
theorem sorted_le_getLast :
    ∀ (l : List Int), l.Sorted (· ≤ ·) → ∀ (hne : l ≠ []) (x : Int), x ∈ l →
      x ≤ l.getLast hne
  | [], _, hne, _, _ => absurd rfl hne
  | [a], _, _, x, hx => by
      simp at hx
      simp [hx, List.getLast]
  | a :: b :: t, hs, hne, x, hx => by
      have hcons : (a :: b :: t).getLast hne = (b :: t).getLast (by simp) :=
        List.getLast_cons (by simp)
      rw [hcons]
      rcases List.mem_cons.mp hx with hxa | hxbt
      · subst hxa
        have hle : x ≤ b := (List.pairwise_cons.mp hs).1 b (by simp)
        have := sorted_le_getLast (b :: t) (List.pairwise_cons.mp hs).2 (by simp) b (by simp)
        omega
      · exact sorted_le_getLast (b :: t) (List.pairwise_cons.mp hs).2 (by simp) x hxbt

theorem kll_drop_last_eq :
    ∀ (l : List Int) (hne : l ≠ []), l.drop (l.length - 1) = [l.getLast hne]
  | [a], _ => rfl
  | a :: b :: t, _ => by
      have ih := kll_drop_last_eq (b :: t) (by simp)
      have h1 : (a :: b :: t).length - 1 = ((b :: t).length - 1) + 1 := by simp
      rw [h1, List.drop_succ_cons, ih]
      rfl

theorem kll_sorted_sort (l : List Int) :
    (l.insertionSort (fun a b => a ≤ b)).Sorted (· ≤ ·) :=
  List.sorted_insertionSort (fun a b => a ≤ b) l

/-- The emitted items of one KLL compaction are the sorted buffer's
entries at `offset, offset+2, …` once an odd tail is removed. -/
theorem kll_compact_emit_getD (co : KCompactor) (coin : Bool) (j : Nat)
    (hj : j < co.buf.length / 2) :
    ((co.compact coin).1).getD j 0
      = (co.buf.insertionSort (fun a b => a ≤ b)).getD
          ((co.compact coin).2.offset + 2 * j) 0 := by
  set off := (co.compact coin).2.offset with hoffd
  have hoffle : off ≤ 1 := by
    show (if co.numCompaction % 2 = 1 ∧ co.alternate
      then 1 - co.offset else (if coin then 1 else 0)) ≤ 1
    split
    · omega
    · split <;> omega
  set sorted := co.buf.insertionSort (fun a b => a ≤ b) with hsorted
  have hslen : sorted.length = co.buf.length := List.length_insertionSort ..
  set main := if sorted.length % 2 = 1 then sorted.dropLast else sorted with hmain
  have hmlen : main.length = co.buf.length - co.buf.length % 2 := by
    rw [hmain]
    split <;> simp [List.length_dropLast, hslen] <;> omega
  have hemit : (co.compact coin).1 = everyOther (main.drop off) := rfl
  have hlen1 : ((co.compact coin).1).length = co.buf.length / 2 :=
    kll_compact_fst_len co coin
  have hj1 : j < ((co.compact coin).1).length := by omega
  have hj2 : 2 * j < (main.drop off).length := by
    rw [List.length_drop]
    have := everyOther_length (main.drop off)
    rw [hemit] at hlen1
    rw [everyOther_length, List.length_drop] at hlen1
    omega
  have hj3 : off + 2 * j < main.length := by
    rw [List.length_drop] at hj2
    omega
  have hj4 : off + 2 * j < sorted.length := by
    rw [hmain] at hj3
    by_cases hodd : sorted.length % 2 = 1
    · rw [if_pos hodd] at hj3
      rw [List.length_dropLast] at hj3
      omega
    · rw [if_neg hodd] at hj3
      exact hj3
  rw [hemit, List.getD_eq_getElem _ _ (by rw [← hemit]; exact hj1),
    List.getD_eq_getElem _ _ hj4]
  rw [everyOther_getElem (main.drop off) j (by rw [← hemit]; exact hj1) hj2]
  rw [List.getElem_drop]
  by_cases hodd : sorted.length % 2 = 1
  · have hmd : main = sorted.dropLast := by rw [hmain, if_pos hodd]
    rw [List.getElem_of_eq hmd]
    exact List.getElem_dropLast sorted (off + 2 * j) (by
      rw [hmain, if_pos hodd] at hj3
      exact hj3)
  · have hmd : main = sorted := by rw [hmain, if_neg hodd]
    rw [List.getElem_of_eq hmd]

/-- C3: `Compactor.compact` performs exactly these steps: it flips
`offset` when `alternate` is set and `numCompaction` is odd and
otherwise draws it from the coin; sorts the buffer ascending; emits the
sorted items at indices `offset, offset+2, …` in ascending order —
exactly `⌊|buf|/2⌋` of them; leaves `|buf| % 2` items in the buffer
(the popped maximum when `|buf|` was odd); and increments
`numCompaction`. -/
theorem C3_kll_compact_steps (co : KCompactor) (coin : Bool) :
    (co.compact coin).2.offset
        = (if co.numCompaction % 2 = 1 ∧ co.alternate then 1 - co.offset
           else (if coin then 1 else 0)) ∧
    (co.compact coin).2.numCompaction = co.numCompaction + 1 ∧
    ((co.compact coin).1).length = co.buf.length / 2 ∧
    (∀ j, j < co.buf.length / 2 →
      ((co.compact coin).1).getD j 0
        = (co.buf.insertionSort (fun a b => a ≤ b)).getD
            ((co.compact coin).2.offset + 2 * j) 0) ∧
    ((co.compact coin).1).Sorted (· ≤ ·) ∧
    ((co.compact coin).2).buf.length = co.buf.length % 2 ∧
    (co.buf.length % 2 = 1 →
      ∃ m, (co.compact coin).2.buf = [m] ∧ ∀ x ∈ co.buf, x ≤ m) := by
  refine ⟨rfl, rfl, kll_compact_fst_len co coin, ?_, ?_, kll_compact_snd_len co coin, ?_⟩
  · intro j hj
    exact kll_compact_emit_getD co coin j hj
  · -- sortedness: the emitted list is a sublist of the sorted buffer
    set sorted := co.buf.insertionSort (fun a b => a ≤ b) with hsorted
    have hsort : sorted.Sorted (· ≤ ·) := kll_sorted_sort co.buf
    have hemit : (co.compact coin).1
        = everyOther ((if sorted.length % 2 = 1 then sorted.dropLast else sorted).drop
            (co.compact coin).2.offset) := rfl
    rw [hemit]
    have hsub1 : ((if sorted.length % 2 = 1 then sorted.dropLast else sorted).drop
        (co.compact coin).2.offset).Sublist sorted := by
      apply List.Sublist.trans (List.drop_sublist _ _)
      split
      · exact List.dropLast_sublist sorted
      · exact List.Sublist.refl sorted
    exact (hsort.sublist (List.Sublist.trans (everyOther_sublist _) hsub1))
  · intro hodd
    set sorted := co.buf.insertionSort (fun a b => a ≤ b) with hsorted
    have hslen : sorted.length = co.buf.length := List.length_insertionSort ..
    have hbuf : (co.compact coin).2.buf
        = (if sorted.length % 2 = 1 then sorted.drop (sorted.length - 1) else []) := rfl
    have hodds : sorted.length % 2 = 1 := by omega
    have hne : sorted ≠ [] := by
      intro hnil
      rw [hnil] at hslen
      simp at hslen
      omega
    refine ⟨sorted.getLast hne, ?_, ?_⟩
    · rw [hbuf, if_pos hodds, kll_drop_last_eq sorted hne]
    · intro x hx
      apply sorted_le_getLast sorted (kll_sorted_sort co.buf) hne
      have : x ∈ sorted ↔ x ∈ co.buf := (List.perm_insertionSort _ co.buf).mem_iff
      exact this.mpr hx

/-! ### Req accounting lemmas -/
theorem rsumLen_cons (c : RelCompactor) (cs : List RelCompactor) :
    rsumLen (c :: cs) = c.buf.length + rsumLen cs := by
  simp [rsumLen]

theorem rsumLen_append (cs ds : List RelCompactor) :
    rsumLen (cs ++ ds) = rsumLen cs + rsumLen ds := by
  simp [rsumLen]

theorem rsumLen_extendAt (cs : List RelCompactor) (h : Nat) (em : List Int)
    (hh : h < cs.length) :
    rsumLen (rextendAt em cs h) = rsumLen cs + em.length := by
  induction cs generalizing h with
  | nil => simp at hh
  | cons c cs ih =>
      cases h with
      | zero => simp [rextendAt, rsumLen_cons]; omega
      | succ h =>
          simp only [rextendAt, rsumLen_cons]
          have := ih h (by simpa using hh)
          omega

theorem rextendAt_length (em : List Int) :
    ∀ (cs : List RelCompactor) (h : Nat), (rextendAt em cs h).length = cs.length
  | [], _ => rfl
  | c :: cs, 0 => by simp [rextendAt]
  | c :: cs, h + 1 => by simp [rextendAt, rextendAt_length em cs h]

theorem rkw_append_empty (cs : List RelCompactor) (k h : Nat) :
    rkw (cs ++ [freshRel k h]) = rkw cs := by
  induction cs with
  | nil => rfl
  | cons c cs ih => simp [rkw, ih]

theorem rkw_extendAt (em : List Int) :
    ∀ (cs : List RelCompactor) (g : Nat), g < cs.length →
      rkw (rextendAt em cs g) = rkw cs + 2 ^ g * em.length
  | [], g, hg => by simp at hg
  | c :: cs, 0, _ => by simp [rextendAt, rkw]; ring
  | c :: cs, g + 1, hg => by
      simp only [rextendAt, rkw]
      rw [rkw_extendAt em cs g (by simpa using hg)]
      ring

theorem rkw_set :
    ∀ (cs : List RelCompactor) (h : Nat) (c2 : RelCompactor), h < cs.length →
      rkw (cs.set h c2) + 2 ^ h * (cs.getD h default).buf.length
        = rkw cs + 2 ^ h * c2.buf.length
  | [], h, c2, hh => by simp at hh
  | c :: cs, 0, c2, _ => by simp [rkw]; ring
  | c :: cs, h + 1, c2, hh => by
      simp only [List.set_cons_succ, rkw, List.getD_cons_succ]
      have := rkw_set cs h c2 (by simpa using hh)
      have hp1 : 2 ^ (h + 1) * (cs.getD h default).buf.length
          = 2 * (2 ^ h * (cs.getD h default).buf.length) := by ring
      have hp2 : 2 ^ (h + 1) * c2.buf.length = 2 * (2 ^ h * c2.buf.length) := by ring
      rw [hp1, hp2]
      omega

theorem rsumLen_set (cs : List RelCompactor) (h : Nat) (c2 : RelCompactor)
    (hh : h < cs.length) :
    rsumLen (cs.set h c2) + (cs.getD h default).buf.length =
      rsumLen cs + c2.buf.length := by
  induction cs generalizing h with
  | nil => simp at hh
  | cons c cs ih =>
      cases h with
      | zero => simp [rsumLen_cons]; omega
      | succ h =>
          simp only [List.set_cons_succ, rsumLen_cons, List.getD_cons_succ]
          have := ih h (by simpa using hh)
          omega

theorem req_ensure_buf (co : RelCompactor) :
    co.ensureEnoughSections.buf = co.buf := by
  unfold RelCompactor.ensureEnoughSections
  split <;> rfl

theorem req_ensure_numCompactions (co : RelCompactor) :
    co.ensureEnoughSections.numCompactions = co.numCompactions := by
  unfold RelCompactor.ensureEnoughSections
  split <;> rfl

/-- The parity adjustment makes the compacted suffix even. -/
theorem req_sAdj_parity (co : RelCompactor) (len : Nat) :
    ((len : Int) - reqCompactSAdj co len) % 2 = 0 := by
  unfold reqCompactSAdj
  set s := reqCompactS co with hs
  by_cases hodd : ((len : Int) - s) % 2 = 1
  · rw [if_pos hodd]
    by_cases hpos : s > 0
    · rw [if_pos hpos]; omega
    · rw [if_neg hpos]; omega
  · rw [if_neg hodd]; omega

/-- Effect of one accepted `RelativeCompactor.compact` call on buffer
lengths: with `s` the adjusted start index, the buffer keeps its first
`s` items, the compacted suffix has even length `len - s ≥ 2`, and
exactly `(len - s)/2` items are emitted. -/
theorem req_compact_ok_lens (co : RelCompactor) (coin : Bool)
    (pr : List Int × RelCompactor)
    (hok : co.compact coin = .ok pr) :
    let sN := (reqCompactSAdj co co.buf.length).toNat
    pr.2.buf.length = sN ∧
    pr.1.length = (co.buf.length - sN) / 2 ∧
    (co.buf.length - sN) % 2 = 0 ∧
    sN + 2 ≤ co.buf.length ∧
    pr.2.numCompactions = co.numCompactions + 1 := by
  intro sN
  unfold RelCompactor.compact at hok
  by_cases h1 : ¬ 1 < co.nomCapacity
  · rw [if_pos h1] at hok; exact absurd hok (by simp)
  rw [if_neg h1] at hok
  by_cases h2 : ¬ co.buf.length ≥ co.nomCapacity
  · rw [if_pos h2] at hok; exact absurd hok (by simp)
  rw [if_neg h2] at hok
  by_cases h3 : ¬ (co.sectionSize < SMALLEST_MEANINGFUL_SECTION_SIZE
      ∨ (co.numCompactions ≤ 2 ^ (co.numSections - 1)
          ∧ co.state ≤ 2 ^ (co.numSections - 1)))
  · rw [if_pos h3] at hok; exact absurd hok (by simp)
  rw [if_neg h3] at hok
  by_cases h4 : ¬ reqCompactSAdj co co.buf.length < (co.buf.length : Int) - 1
  · rw [if_pos h4] at hok; exact absurd hok (by simp)
  rw [if_neg h4] at hok
  by_cases h5 : ¬ reqCompactSAdj co co.buf.length
      ≥ ((co.nomCapacity / 2 : Nat) : Int) - 1
  · rw [if_pos h5] at hok; exact absurd hok (by simp)
  rw [if_neg h5] at hok
  push_neg at h1 h2 h4 h5
  injection hok with hpr
  subst hpr
  have hcap2 : 2 ≤ co.nomCapacity := h1
  have hcapHalf : 1 ≤ co.nomCapacity / 2 := by omega
  have hs0 : 0 ≤ reqCompactSAdj co co.buf.length := by omega
  have hsN : (sN : Int) = reqCompactSAdj co co.buf.length := Int.toNat_of_nonneg hs0
  have hslen : sN + 2 ≤ co.buf.length := by omega
  have hparity : (co.buf.length - sN) % 2 = 0 := by
    have := req_sAdj_parity co co.buf.length
    omega
  have hsortlen : (co.buf.insertionSort (fun a b => a ≤ b)).length = co.buf.length :=
    List.length_insertionSort ..
  refine ⟨?_, ?_, hparity, hslen, rfl⟩
  · show (List.take sN (co.buf.insertionSort (fun a b => a ≤ b))).length = sN
    rw [List.length_take]
    omega
  · show (everyOther ((co.buf.insertionSort (fun a b => a ≤ b)).drop
        (sN + (if co.numCompactions % 2 = 1 then 1 - co.offset
          else (if coin then 1 else 0))))).length = (co.buf.length - sN) / 2
    rw [everyOther_length, List.length_drop, hsortlen]
    have hoffle : (if co.numCompactions % 2 = 1 then 1 - co.offset
        else (if coin then 1 else 0)) ≤ 1 := by
      split
      · omega
      · split <;> omega
    omega

theorem req_updateMax_spec (st st2 : ReqSketch)
    (h : reqUpdateMaxNomSizeE st = .ok st2) :
    st2.compactors = st.compactors ∧ st2.size = st.size ∧ st2.N = st.N ∧
    st2.H = st.H ∧ st2.k = st.k ∧ st2.rng = st.rng := by
  unfold reqUpdateMaxNomSizeE at h
  split at h
  · injection h with h2
    subst h2
    exact ⟨rfl, rfl, rfl, rfl, rfl, rfl⟩
  · exact absurd h (by simp)

theorem req_grow_spec (st st2 : ReqSketch) (h : st.grow = .ok st2) :
    st2.compactors = st.compactors ++ [freshRel st.k st.H] ∧
    st2.size = st.size ∧ st2.N = st.N ∧
    st2.H = st.compactors.length + 1 ∧ st2.k = st.k ∧
    rsumLen st2.compactors = rsumLen st.compactors ∧
    rkw st2.compactors = rkw st.compactors ∧ st2.rng = st.rng := by
  unfold ReqSketch.grow at h
  obtain ⟨hcs, hsz, hN, hH, hk, hrng⟩ := req_updateMax_spec _ _ h
  have hlen : (st.compactors ++ [freshRel st.k st.H]).length
      = st.compactors.length + 1 := by simp
  refine ⟨hcs, hsz, hN, ?_, hk, ?_, ?_, hrng⟩
  · rw [hH]; exact hlen
  · rw [hcs, rsumLen_append]; rfl
  · rw [hcs]; exact rkw_append_empty _ _ _

/-- The compress loop keeps the bookkeeping: `H` mirrors the compactor
count, a recomputed `size` matches `Σ len`, and `N`, `k` and the total
stored weight are unchanged. -/
theorem reqCompressAux_spec (coins : Nat → Bool) (lazy : Bool) :
    ∀ (n : Nat) (st : ReqSketch) (h : Nat) (st2 : ReqSketch),
      reqCompressAux coins lazy st h n = .ok st2 →
      st.H = st.compactors.length →
      st2.H = st2.compactors.length ∧
      (st.size = rsumLen st.compactors → st2.size = rsumLen st2.compactors) ∧
      st2.N = st.N ∧ st2.k = st.k ∧
      rkw st2.compactors = rkw st.compactors
  | 0, st, h, st2, hok, hH => by
      injection hok with he
      subst he
      exact ⟨hH, fun hs => hs, rfl, rfl, rfl⟩
  | n + 1, st, h, st2, hok, hH => by
      rw [reqCompressAux] at hok
      by_cases h1 : ¬ 1 < (st.compactors.getD h default).nomCapacity
      · rw [if_pos h1] at hok; exact absurd hok (by simp)
      rw [if_neg h1] at hok
      push_neg at h1
      by_cases h2 : (st.compactors.getD h default).buf.length
          ≥ (st.compactors.getD h default).nomCapacity
      · rw [if_pos h2] at hok
        have hidx : h < st.compactors.length := by
          by_contra hni
          push_neg at hni
          rw [List.getD_eq_default _ _ (by omega)] at h1 h2
          have : (default : RelCompactor).nomCapacity = 0 := rfl
          omega
        -- the optional grow
        rcases hg : (if h + 1 ≥ st.H then st.grow else Except.ok st) with e | st1
        · rw [hg] at hok; exact absurd hok (by simp)
        rw [hg] at hok
        dsimp only at hok
        have hst1 : st.compactors.length ≤ st1.compactors.length
              ∧ st1.H = st1.compactors.length ∧ st1.N = st.N ∧ st1.k = st.k
              ∧ rkw st1.compactors = rkw st.compactors
              ∧ st1.compactors.getD h default = st.compactors.getD h default
              ∧ h + 1 < st1.compactors.length + 1
              ∧ h + 1 < st1.compactors.length := by
          by_cases hgrow : h + 1 ≥ st.H
          · rw [if_pos hgrow] at hg
            obtain ⟨hcs, _, hN, hHe, hk, _, hkw, _⟩ := req_grow_spec st st1 hg
            have hlen : st1.compactors.length = st.compactors.length + 1 := by
              rw [hcs]; simp
            refine ⟨by omega, ?_, hN, hk, hkw, ?_, by omega, by omega⟩
            · rw [hHe]; omega
            · rw [hcs]
              exact List.getD_append _ _ _ _ hidx
          · rw [if_neg hgrow] at hg
            injection hg with he
            subst he
            push_neg at hgrow
            refine ⟨by omega, hH, rfl, rfl, rfl, rfl, by omega, by omega⟩
        obtain ⟨hlen1, hH1, hN1, hk1, hkw1, hgd1, _, hup1⟩ := hst1
        have hidx1 : h < st1.compactors.length := by omega
        have hidx2 : h + 1 < st1.compactors.length := hup1
        -- the compaction
        rcases hc : (st1.compactors.getD h default).compact (coins st1.rng) with e | pr
        · rw [hc] at hok; exact absurd hok (by simp)
        rw [hc] at hok
        dsimp only at hok
        obtain ⟨hb2, he2, hpar, hslen, _⟩ := req_compact_ok_lens _ _ _ hc
        set sN := (reqCompactSAdj (st1.compactors.getD h default)
          (st1.compactors.getD h default).buf.length).toNat with hsN
        set cs1 := st1.compactors.set h pr.2 with hcs1
        set cs2 := rextendAt pr.1 cs1 (h + 1) with hcs2
        have hlencs1 : cs1.length = st1.compactors.length := by simp [hcs1]
        have hsum1 : rsumLen cs1 + (st1.compactors.getD h default).buf.length
            = rsumLen st1.compactors + pr.2.buf.length :=
          rsumLen_set st1.compactors h pr.2 hidx1
        have hsum2 : rsumLen cs2 = rsumLen cs1 + pr.1.length :=
          rsumLen_extendAt cs1 (h + 1) pr.1 (by omega)
        have hkwset : rkw cs1 + 2 ^ h * (st1.compactors.getD h default).buf.length
            = rkw st1.compactors + 2 ^ h * pr.2.buf.length :=
          rkw_set st1.compactors h pr.2 hidx1
        have hkwext : rkw cs2 = rkw cs1 + 2 ^ (h + 1) * pr.1.length :=
          rkw_extendAt pr.1 cs1 (h + 1) (by omega)
        have hkw2 : rkw cs2 = rkw st1.compactors := by
          set L := (st1.compactors.getD h default).buf.length with hL
          have hbal : 2 ^ h * sN + 2 ^ (h + 1) * ((L - sN) / 2) = 2 ^ h * L := by
            have h2L : 2 * ((L - sN) / 2) = L - sN := by omega
            calc 2 ^ h * sN + 2 ^ (h + 1) * ((L - sN) / 2)
                = 2 ^ h * sN + 2 ^ h * (2 * ((L - sN) / 2)) := by ring
              _ = 2 ^ h * sN + 2 ^ h * (L - sN) := by rw [h2L]
              _ = 2 ^ h * (sN + (L - sN)) := by ring
              _ = 2 ^ h * L := by
                  congr 1
                  omega
          rw [hkwext, he2, hb2] at *
          omega
        set st3 : ReqSketch := { st1 with
          compactors := cs2, size := rsumLen cs2, rng := st1.rng + 1 } with hst3
        have hH3 : st3.H = st3.compactors.length := by
          show st1.H = cs2.length
          have hc2l : cs2.length = cs1.length := rextendAt_length pr.1 cs1 (h + 1)
          omega
        by_cases hbrk : lazy ∧ st3.size < st3.maxNomSize
        · rw [if_pos hbrk] at hok
          injection hok with he
          subst he
          exact ⟨hH3, fun _ => rfl, hN1, hk1, by
            show rkw cs2 = rkw st.compactors
            rw [hkw2, hkw1]⟩
        · rw [if_neg hbrk] at hok
          obtain ⟨ha, hb, hc2, hd, he⟩ :=
            reqCompressAux_spec coins lazy n st3 (h + 1) st2 hok hH3
          refine ⟨ha, fun _ => hb rfl, by rw [hc2, hN1], by rw [hd, hk1], ?_⟩
          rw [he]
          show rkw cs2 = rkw st.compactors
          rw [hkw2, hkw1]
      · rw [if_neg h2] at hok
        exact reqCompressAux_spec coins lazy n st (h + 1) st2 hok hH

theorem req_compress_spec (coins : Nat → Bool) (lazy : Bool)
    (st st2 : ReqSketch) (hok : st.compress coins lazy = .ok st2)
    (hH : st.H = st.compactors.length) :
    st2.H = st2.compactors.length ∧
    (st.size = rsumLen st.compactors → st2.size = rsumLen st2.compactors) ∧
    st2.N = st.N ∧ st2.k = st.k ∧
    rkw st2.compactors = rkw st.compactors := by
  unfold ReqSketch.compress at hok
  rcases hu : reqUpdateMaxNomSizeE st with e | st0
  · rw [hu] at hok; exact absurd hok (by simp)
  rw [hu] at hok
  dsimp only at hok
  obtain ⟨hcs0, hsz0, hN0, hH0, hk0, _⟩ := req_updateMax_spec st st0 hu
  by_cases hlt : st0.size < st0.maxNomSize
  · rw [if_pos hlt] at hok
    injection hok with he
    subst he
    rw [hcs0, hsz0, hN0, hH0, hk0]
    exact ⟨hH, fun hs => hs, rfl, rfl, rfl⟩
  · rw [if_neg hlt] at hok
    obtain ⟨ha, hb, hc, hd, he⟩ := reqCompressAux_spec coins lazy
      st0.compactors.length st0 0 st2 hok (by rw [hH0, hcs0]; exact hH)
    rw [hcs0, hsz0, hN0, hk0] at *
    exact ⟨ha, hb, hc, hd, he⟩

/-- A completed `RelativeErrorSketch.update` keeps the bookkeeping, has
`size < maxNomSize` (the trailing assert), increments `N`, and adds a
unit of stored weight. -/
theorem req_update_spec (coins : Nat → Bool) (st : ReqSketch) (x : Int)
    (st2 : ReqSketch) (hok : st.update coins x = .ok st2)
    (hH : st.H = st.compactors.length)
    (hsize : st.size = rsumLen st.compactors) :
    st2.H = st2.compactors.length ∧
    st2.size = rsumLen st2.compactors ∧
    st2.size < st2.maxNomSize ∧
    st2.N = st.N + 1 ∧ st2.k = st.k ∧
    rkw st2.compactors = rkw st.compactors + 1 := by
  unfold ReqSketch.update at hok
  rcases hcs : st.compactors with _ | ⟨c0, rest⟩
  · rw [hcs] at hok; exact absurd hok (by simp)
  rw [hcs] at hok
  dsimp only at hok
  rw [← hcs] at hok
  set st1 : ReqSketch := { st with
    compactors := rextendAt [x] st.compactors 0,
    size := st.size + 1, N := st.N + 1 } with hst1
  have hlen0 : 0 < st.compactors.length := by rw [hcs]; simp
  have hH1 : st1.H = st1.compactors.length := by
    show st.H = (rextendAt [x] st.compactors 0).length
    rw [rextendAt_length]; exact hH
  have hsz1 : st1.size = rsumLen st1.compactors := by
    show st.size + 1 = rsumLen (rextendAt [x] st.compactors 0)
    rw [rsumLen_extendAt st.compactors 0 [x] hlen0, hsize, List.length_singleton]
  have hkw1 : rkw st1.compactors = rkw st.compactors + 1 := by
    show rkw (rextendAt [x] st.compactors 0) = rkw st.compactors + 1
    rw [rkw_extendAt [x] st.compactors 0 hlen0]
    simp
  rcases hc2 : (if st1.size ≥ st1.maxNomSize then st1.compress coins true
      else Except.ok st1) with e | st3
  · rw [hc2] at hok; exact absurd hok (by simp)
  rw [hc2] at hok
  dsimp only at hok
  have hst3 : st3.H = st3.compactors.length ∧ st3.size = rsumLen st3.compactors
      ∧ st3.N = st1.N ∧ st3.k = st1.k
      ∧ rkw st3.compactors = rkw st1.compactors := by
    by_cases hge : st1.size ≥ st1.maxNomSize
    · rw [if_pos hge] at hc2
      obtain ⟨ha, hb, hc, hd, he⟩ := req_compress_spec coins true st1 st3 hc2 hH1
      exact ⟨ha, hb hsz1, hc, hd, he⟩
    · rw [if_neg hge] at hc2
      injection hc2 with he2
      subst he2
      exact ⟨hH1, hsz1, rfl, rfl, rfl⟩
  obtain ⟨ha, hb, hc, hd, he⟩ := hst3
  by_cases hfin : st3.size < st3.maxNomSize
  · rw [if_pos hfin] at hok
    injection hok with hfe
    subst hfe
    refine ⟨ha, hb, hfin, ?_, ?_, ?_⟩
    · rw [hc]
    · rw [hd]
    · rw [he, hkw1, hcs]
  · rw [if_neg hfin] at hok
    exact absurd hok (by simp)

theorem reqGrowUntil_spec (target : Nat) :
    ∀ (fuel : Nat) (st st2 : ReqSketch),
      reqGrowUntil target fuel st = .ok st2 →
      st.H = st.compactors.length →
      st2.H = st2.compactors.length ∧
      st2.N = st.N ∧ st2.k = st.k ∧ st2.size = st.size ∧
      rsumLen st2.compactors = rsumLen st.compactors ∧
      rkw st2.compactors = rkw st.compactors ∧
      st.compactors.length ≤ st2.compactors.length
  | 0, st, st2, hok, hH => by
      injection hok with he
      subst he
      exact ⟨hH, rfl, rfl, rfl, rfl, rfl, le_refl _⟩
  | fuel + 1, st, st2, hok, hH => by
      rw [reqGrowUntil] at hok
      by_cases hlt : st.H < target
      · rw [if_pos hlt] at hok
        rcases hg : st.grow with e | st1
        · rw [hg] at hok; exact absurd hok (by simp)
        rw [hg] at hok
        obtain ⟨hcs, hsz, hN, hHe, hk, hrs, hkw, _⟩ := req_grow_spec st st1 hg
        have hH1 : st1.H = st1.compactors.length := by
          rw [hHe, hcs]; simp
        have hlen1 : st1.compactors.length = st.compactors.length + 1 := by
          rw [hcs]; simp
        obtain ⟨ha, hb, hc, hd, he, hf, hg2⟩ :=
          reqGrowUntil_spec target fuel st1 st2 hok hH1
        exact ⟨ha, by rw [hb, hN], by rw [hc, hk], by rw [hd, hsz],
          by rw [he, hrs], by rw [hf, hkw], by omega⟩
      · rw [if_neg hlt] at hok
        injection hok with he
        subst he
        exact ⟨hH, rfl, rfl, rfl, rfl, rfl, le_refl _⟩

theorem req_mergeIntoSelf_compactor_buf (co other : RelCompactor) :
    (co.mergeIntoSelf other).buf = co.buf ++ other.buf := by
  unfold RelCompactor.mergeIntoSelf
  dsimp only
  rw [req_ensure_buf]

theorem reqMergeLevels_length :
    ∀ (cs os : List RelCompactor), os.length ≤ cs.length →
      (reqMergeLevels cs os).length = cs.length
  | cs, [], _ => by
      cases cs <;> simp [reqMergeLevels]
  | [], _ :: _, h => by simp at h
  | c :: cs, o :: os, h => by
      simp only [reqMergeLevels, List.length_cons]
      rw [reqMergeLevels_length cs os (by simpa using h)]

theorem rsumLen_reqMergeLevels :
    ∀ (cs os : List RelCompactor), os.length ≤ cs.length →
      rsumLen (reqMergeLevels cs os) = rsumLen cs + rsumLen os
  | cs, [], _ => by
      cases cs <;> simp [reqMergeLevels, rsumLen]
  | [], _ :: _, h => by simp at h
  | c :: cs, o :: os, h => by
      simp only [reqMergeLevels, rsumLen_cons]
      rw [rsumLen_reqMergeLevels cs os (by simpa using h),
        req_mergeIntoSelf_compactor_buf]
      simp
      omega

theorem rkw_reqMergeLevels :
    ∀ (cs os : List RelCompactor), os.length ≤ cs.length →
      rkw (reqMergeLevels cs os) = rkw cs + rkw os
  | cs, [], _ => by
      cases cs <;> simp [reqMergeLevels, rkw]
  | [], _ :: _, h => by simp at h
  | c :: cs, o :: os, h => by
      simp only [reqMergeLevels, rkw]
      rw [rkw_reqMergeLevels cs os (by simpa using h),
        req_mergeIntoSelf_compactor_buf]
      simp
      omega

/-- A completed `RelativeErrorSketch.mergeIntoSelf` keeps the
bookkeeping, satisfies the trailing assert, adds the stream counts, and
adds the stored weights. -/
theorem req_merge_spec (coins : Nat → Bool) (st other : ReqSketch)
    (st2 : ReqSketch) (hok : st.mergeIntoSelf coins other = .ok st2)
    (hH : st.H = st.compactors.length)
    (hHo : other.H = other.compactors.length) :
    st2.H = st2.compactors.length ∧
    st2.size = rsumLen st2.compactors ∧
    st2.size < st2.maxNomSize ∧
    st2.N = st.N + other.N ∧ st2.k = st.k ∧
    rkw st2.compactors = rkw st.compactors + rkw other.compactors := by
  unfold ReqSketch.mergeIntoSelf at hok
  rcases hg : reqGrowUntil other.H other.H st with e | st1
  · rw [hg] at hok; exact absurd hok (by simp)
  rw [hg] at hok
  dsimp only at hok
  obtain ⟨hH1, hN1, hk1, hsz1, hrs1, hkw1, hlen1⟩ :=
    reqGrowUntil_spec other.H other.H st st1 hg hH
  have hgrown : other.H ≤ st1.H := by
    by_contra hcon
    push_neg at hcon
    -- `reqGrowUntil` with fuel `target` always reaches `target ≥ H`
    -- under H = len: show by a separate induction
    have : ∀ (fuel : Nat) (s s2 : ReqSketch), reqGrowUntil other.H fuel s = .ok s2 →
        s.H = s.compactors.length → other.H ≤ s.H + fuel → other.H ≤ s2.H := by
      intro fuel
      induction fuel with
      | zero =>
          intro s s2 hok2 _ hle
          rw [reqGrowUntil] at hok2
          injection hok2 with he
          subst he
          omega
      | succ fuel ih =>
          intro s s2 hok2 hHs hle
          rw [reqGrowUntil] at hok2
          by_cases hlt : s.H < other.H
          · rw [if_pos hlt] at hok2
            rcases hgs : s.grow with e | s1
            · rw [hgs] at hok2; exact absurd hok2 (by simp)
            rw [hgs] at hok2
            obtain ⟨hcs, _, _, hHe, _, _, _, _⟩ := req_grow_spec s s1 hgs
            exact ih s1 s2 hok2 (by rw [hHe, hcs]; simp) (by omega)
          · rw [if_neg hlt] at hok2
            injection hok2 with he
            subst he
            omega
    exact absurd (this other.H st st1 hg hH (by omega)) (by omega)
  have hoslen : other.compactors.length ≤ st1.compactors.length := by omega
  set cs := reqMergeLevels st1.compactors other.compactors with hcs
  set st3 : ReqSketch := { st1 with
    compactors := cs, N := st1.N + other.N, size := rsumLen cs } with hst3
  have hH3 : st3.H = st3.compactors.length := by
    show st1.H = cs.length
    rw [reqMergeLevels_length st1.compactors other.compactors hoslen]
    exact hH1
  have hsz3 : st3.size = rsumLen st3.compactors := rfl
  have hkw3 : rkw st3.compactors = rkw st.compactors + rkw other.compactors := by
    show rkw cs = _
    rw [rsumLen_reqMergeLevels st1.compactors other.compactors hoslen] at hst3
    rw [rkw_reqMergeLevels st1.compactors other.compactors hoslen, hkw1]
  rcases hc2 : (if st3.size ≥ st3.maxNomSize then st3.compress coins false
      else Except.ok st3) with e | st4
  · rw [hc2] at hok; exact absurd hok (by simp)
  rw [hc2] at hok
  dsimp only at hok
  have hst4 : st4.H = st4.compactors.length ∧ st4.size = rsumLen st4.compactors
      ∧ st4.N = st3.N ∧ st4.k = st3.k
      ∧ rkw st4.compactors = rkw st3.compactors := by
    by_cases hge : st3.size ≥ st3.maxNomSize
    · rw [if_pos hge] at hc2
      obtain ⟨ha, hb, hc, hd, he⟩ := req_compress_spec coins false st3 st4 hc2 hH3
      exact ⟨ha, hb hsz3, hc, hd, he⟩
    · rw [if_neg hge] at hc2
      injection hc2 with he2
      subst he2
      exact ⟨hH3, hsz3, rfl, rfl, rfl⟩
  obtain ⟨ha, hb, hc, hd, he⟩ := hst4
  by_cases hfin : st4.size < st4.maxNomSize
  · rw [if_pos hfin] at hok
    injection hok with hfe
    subst hfe
    refine ⟨ha, hb, hfin, ?_, ?_, ?_⟩
    · show st4.N = st.N + other.N
      rw [hc]
      show st1.N + other.N = st.N + other.N
      rw [hN1]
    · rw [hd]
      show st1.k = st.k
      rw [hk1]
    · rw [he, hkw3]
  · rw [if_neg hfin] at hok
    exact absurd hok (by simp)

theorem reqInit_ok {k : Int} {st : ReqSketch} (h : reqInit k = .ok st) :
    st.compactors = [freshRel k.toNat 0] ∧ st.H = 1 ∧ st.size = 0 ∧
    st.N = 0 ∧ st.k = k.toNat ∧ st.maxNomSize = 6 * k.toNat ∧ 1 ≤ k.toNat := by
  unfold reqInit at h
  by_cases h1 : k ≤ 0
  · rw [if_pos h1] at h; exact absurd h (by simp)
  rw [if_neg h1] at h
  push_neg at h1
  unfold ReqSketch.grow reqUpdateMaxNomSizeE at h
  rw [if_pos (by
    simp only [List.nil_append, List.all_cons, List.all_nil, Bool.and_true,
      decide_eq_true_eq]
    show 1 < (freshRel k.toNat 0).nomCapacity
    show 1 < 2 * INIT_NUMBER_OF_SECTIONS * k.toNat
    show 1 < 2 * 3 * k.toNat
    omega)] at h
  injection h with he
  subst he
  refine ⟨rfl, rfl, rfl, rfl, rfl, ?_, by omega⟩
  show ([freshRel k.toNat 0].map (fun c => c.nomCapacity)).sum = 6 * k.toNat
  show (freshRel k.toNat 0).nomCapacity + 0 = 6 * k.toNat
  show 2 * 3 * k.toNat + 0 = 6 * k.toNat
  omega

/-- Invariants of reachable Req states: `H` mirrors the compactor
count, `size` is the sum of the buffer lengths, the trailing asserts
give `size < maxNomSize`, and the stored weight equals `N`. -/
theorem req_reach_inv : ∀ {st : ReqSketch}, RReach st →
    st.H = st.compactors.length ∧ st.size = rsumLen st.compactors ∧
    st.size < st.maxNomSize ∧ rkw st.compactors = st.N := by
  intro st h
  induction h with
  | init k st hok =>
      obtain ⟨hcs, hH, hsz, hN, hk, hmax, hk1⟩ := reqInit_ok hok
      refine ⟨by rw [hcs, hH]; rfl, by rw [hcs, hsz]; rfl, by omega,
        by rw [hcs, hN]; rfl⟩
  | update coins st x st2 _ hok ih =>
      obtain ⟨ihH, ihsz, _, ihkw⟩ := ih
      obtain ⟨ha, hb, hcm, hd, _, hf⟩ := req_update_spec coins st x st2 hok ihH ihsz
      exact ⟨ha, hb, hcm, by rw [hf, ihkw, hd]⟩
  | merge coins st other st2 _ _ hok ih iho =>
      obtain ⟨ihH, ihsz, _, ihkw⟩ := ih
      obtain ⟨ioH, _, _, iokw⟩ := iho
      obtain ⟨ha, hb, hcm, hd, _, hf⟩ := req_merge_spec coins st other st2 hok ihH ioH
      exact ⟨ha, hb, hcm, by rw [hf, ihkw, iokw, hd]⟩

/-- The lazy compress loop of the Req sketch breaks early only when the
size constraint holds; otherwise it runs exactly like the eager loop. -/
theorem reqCompressAux_lazy_break (coins : Nat → Bool) :
    ∀ (n : Nat) (st : ReqSketch) (h : Nat) (st2 : ReqSketch),
      reqCompressAux coins true st h n = .ok st2 →
      st2.size < st2.maxNomSize ∨ reqCompressAux coins false st h n = .ok st2
  | 0, st, h, st2, hok => .inr hok
  | n + 1, st, h, st2, hok => by
      rw [reqCompressAux] at hok
      rw [reqCompressAux]
      by_cases h1 : ¬ 1 < (st.compactors.getD h default).nomCapacity
      · rw [if_pos h1] at hok; exact absurd hok (by simp)
      rw [if_neg h1] at hok
      rw [if_neg h1]
      by_cases h2 : (st.compactors.getD h default).buf.length
          ≥ (st.compactors.getD h default).nomCapacity
      · rw [if_pos h2] at hok
        rw [if_pos h2]
        rcases hg : (if h + 1 ≥ st.H then st.grow else Except.ok st) with e | st1
        · rw [hg] at hok; exact absurd hok (by simp)
        rw [hg] at hok
        dsimp only at hok ⊢
        rcases hc : (st1.compactors.getD h default).compact (coins st1.rng) with e | pr
        · rw [hc] at hok; exact absurd hok (by simp)
        rw [hc] at hok
        dsimp only at hok ⊢
        by_cases hbrk : (true = true) ∧ rsumLen (rextendAt pr.1
            (st1.compactors.set h pr.2) (h + 1)) < st1.maxNomSize
        · rw [if_pos hbrk] at hok
          injection hok with he
          subst he
          exact .inl hbrk.2
        · rw [if_neg hbrk] at hok
          rw [if_neg (by
            intro hcon
            exact hbrk ⟨rfl, hcon.2⟩)]
          exact reqCompressAux_lazy_break coins n _ (h + 1) st2 hok
      · rw [if_neg h2] at hok
        rw [if_neg h2]
        exact reqCompressAux_lazy_break coins n st (h + 1) st2 hok

/-- `compress(lazy=True)` returns early only with the constraint
satisfied; otherwise it coincides with `compress(lazy=False)`. -/
theorem req_compress_lazy_break (coins : Nat → Bool) (st st2 : ReqSketch)
    (hok : st.compress coins true = .ok st2) :
    st2.size < st2.maxNomSize ∨ st.compress coins false = .ok st2 := by
  unfold ReqSketch.compress at hok ⊢
  rcases hu : reqUpdateMaxNomSizeE st with e | st0
  · rw [hu] at hok; exact absurd hok (by simp)
  rw [hu] at hok
  dsimp only at hok ⊢
  by_cases hlt : st0.size < st0.maxNomSize
  · rw [if_pos hlt] at hok
    rw [if_pos hlt]
    injection hok with he
    subst he
    exact .inl hlt
  · rw [if_neg hlt] at hok
    rw [if_neg hlt]
    exact reqCompressAux_lazy_break coins st0.compactors.length st0 0 st2 hok

/-! ### The compaction start index never reaches into the lower half -/
theorem req_trailing_pow_le :
    ∀ (fuel n : Nat), n ≤ fuel → 2 ^ trailingOnesAux fuel n ≤ n + 1
  | 0, n, hle => by
      have : n = 0 := by omega
      subst this
      simp [trailingOnesAux]
  | fuel + 1, n, hle => by
      rw [trailingOnesAux]
      by_cases hodd : n % 2 = 1
      · rw [if_pos hodd]
        have hrec := req_trailing_pow_le fuel (n / 2) (by omega)
        have : 2 ^ (trailingOnesAux fuel (n / 2) + 1)
            = 2 * 2 ^ trailingOnesAux fuel (n / 2) := by ring
        rw [this]
        omega
      · rw [if_neg hodd]
        simp

theorem req_trailing_le (state ns : Nat) (h2 : 2 ≤ ns)
    (hst : state ≤ 2 ^ (ns - 1)) :
    trailing_ones_binary state + 1 ≤ ns := by
  have h1 := req_trailing_pow_le state state (le_refl _)
  by_contra hcon
  push_neg at hcon
  have hge : ns ≤ trailing_ones_binary state := by omega
  have hp : 2 ^ ns ≤ 2 ^ trailing_ones_binary state :=
    Nat.pow_le_pow_right (by omega) hge
  have hsplit : 2 ^ ns = 2 ^ (ns - 1) * 2 := by
    have hns : ns - 1 + 1 = ns := by omega
    calc 2 ^ ns = 2 ^ (ns - 1 + 1) := by rw [hns]
    _ = 2 ^ (ns - 1) * 2 := pow_succ 2 (ns - 1)
  have h4 : 2 ≤ 2 ^ (ns - 1) := by
    calc 2 = 2 ^ 1 := by norm_num
    _ ≤ 2 ^ (ns - 1) := Nat.pow_le_pow_right (by omega) (by omega)
  have hdef : trailing_ones_binary state = trailingOnesAux state state := rfl
  rw [hdef] at hp hcon hge
  omega

/-- The adjusted compaction start index `s` of a Req compaction
satisfies the two asserts of the source: `s >= cap//2 - 1` (the lower
half of the buffer is never compacted) and `s < len - 1`. -/
theorem req_compact_s_bounds (co : RelCompactor) (len : Nat)
    (hcap : 1 < co.nomCapacity)
    (hlen : co.nomCapacity ≤ len)
    (hns : 2 ≤ co.numSections)
    (hsched : co.sectionSize < SMALLEST_MEANINGFUL_SECTION_SIZE
      ∨ co.state ≤ 2 ^ (co.numSections - 1)) :
    ((co.nomCapacity / 2 : Nat) : Int) - 1 ≤ reqCompactSAdj co len ∧
    reqCompactSAdj co len < (len : Int) - 1 := by
  have hAdef : co.nomCapacity / 2 = co.numSections * co.sectionSize := by
    show 2 * co.numSections * co.sectionSize / 2 = _
    rw [Nat.mul_assoc]
    exact Nat.mul_div_cancel_left _ (by norm_num)
  set A := co.numSections * co.sectionSize with hA
  have hA1 : 1 ≤ A := by
    have : 2 ≤ 2 * co.numSections * co.sectionSize := hcap
    omega
  have hlen2A : 2 * A ≤ len := by
    have hc2A : co.nomCapacity = 2 * A := by
      rw [hA]
      show 2 * co.numSections * co.sectionSize = _
      ring
    omega
  set s := reqCompactS co with hs
  have hbounds : (A : Int) ≤ s ∧
      (s ≤ (A : Int) ∨
        (4 ≤ co.sectionSize ∧ s ≤ 2 * (A : Int) - co.sectionSize)) := by
    rw [hs]
    unfold reqCompactS
    by_cases hsmall : co.sectionSize < SMALLEST_MEANINGFUL_SECTION_SIZE
    · rw [if_pos hsmall, hAdef]
      exact ⟨le_refl _, .inl (le_refl _)⟩
    · have hst : co.state ≤ 2 ^ (co.numSections - 1) := hsched.resolve_left hsmall
      rw [if_neg hsmall, hAdef]
      push_neg at hsmall
      have hss4 : 4 ≤ co.sectionSize := hsmall
      have ht := req_trailing_le co.state co.numSections hns hst
      have ht' : ((trailing_ones_binary co.state : Int) + 1) ≤ co.numSections := by
        exact_mod_cast ht
      have htn : (0 : Int) ≤ (trailing_ones_binary co.state : Int) :=
        Int.natCast_nonneg _
      set B : Int :=
        ((co.numSections : Int) - ((trailing_ones_binary co.state : Int) + 1))
          * co.sectionSize with hB
      have hB0 : 0 ≤ B := by
        apply mul_nonneg
        · omega
        · positivity
      have hBle : B ≤ ((co.numSections : Int) - 1) * co.sectionSize := by
        apply mul_le_mul_of_nonneg_right
        · omega
        · positivity
      have hexp : ((co.numSections : Int) - 1) * co.sectionSize
          = (A : Int) - co.sectionSize := by
        rw [hA]
        push_cast
        ring
      constructor
      · omega
      · right
        exact ⟨hss4, by omega⟩
  obtain ⟨hlo, hhi⟩ := hbounds
  have hspos : 0 < s := by omega
  have hadj2 : (reqCompactSAdj co len = s - 1 ∧ ((len : Int) - s) % 2 = 1) ∨
      (reqCompactSAdj co len = s ∧ ((len : Int) - s) % 2 ≠ 1) := by
    unfold reqCompactSAdj
    rw [← hs]
    by_cases hodd : ((len : Int) - s) % 2 = 1
    · rw [if_pos hodd, if_pos hspos]
      exact .inl ⟨rfl, hodd⟩
    · rw [if_neg hodd]
      exact .inr ⟨rfl, hodd⟩
  rw [hAdef]
  rcases hadj2 with ⟨hval, hodd⟩ | ⟨hval, hodd⟩ <;> rcases hhi with hsma | ⟨hss4, hdet⟩ <;>
    rw [hval] <;> constructor <;> omega

theorem cumRanksAux_length : ∀ (l : List (Int × Nat)) (acc : Nat),
    (cumRanksAux l acc).length = l.length := by
  intro l
  induction l with
  | nil => intro acc; rfl
  | cons p rest ih =>
      intro acc
      obtain ⟨x, w⟩ := p
      show (cumRanksAux rest (acc + w)).length + 1 = rest.length + 1
      rw [ih]

theorem cumRanksAux_ge : ∀ (l : List (Int × Nat)) (acc n : Nat),
    n < l.length → acc ≤ ((cumRanksAux l acc).getD n (0, 0)).2 := by
  intro l
  induction l with
  | nil => intro acc n hn; exact absurd hn (by simp)
  | cons p rest ih =>
      intro acc n hn
      obtain ⟨x, w⟩ := p
      cases n with
      | zero => show acc ≤ acc + w; omega
      | succ n =>
          have h2 : n < rest.length := by
            simpa using Nat.lt_of_succ_lt_succ hn
          have := ih (acc + w) n h2
          show acc ≤ ((cumRanksAux rest (acc + w)).getD n (0, 0)).2
          omega

theorem cumRanksAux_mono : ∀ (l : List (Int × Nat)) (acc n m : Nat),
    n ≤ m → m < l.length →
    ((cumRanksAux l acc).getD n (0, 0)).2 ≤ ((cumRanksAux l acc).getD m (0, 0)).2 := by
  intro l
  induction l with
  | nil => intro acc n m _ hm; exact absurd hm (by simp)
  | cons p rest ih =>
      intro acc n m hnm hm
      obtain ⟨x, w⟩ := p
      cases m with
      | zero =>
          interval_cases n
          exact le_refl _
      | succ m =>
          have hm2 : m < rest.length := by
            simpa using Nat.lt_of_succ_lt_succ hm
          cases n with
          | zero =>
              have := cumRanksAux_ge rest (acc + w) m hm2
              show acc + w ≤ ((cumRanksAux rest (acc + w)).getD m (0, 0)).2
              omega
          | succ n =>
              exact ih (acc + w) n m (Nat.le_of_succ_le_succ hnm) hm2

theorem cumRanksAux_last : ∀ (l : List (Int × Nat)) (acc : Nat), l ≠ [] →
    ((cumRanksAux l acc).getD (l.length - 1) (0, 0)).2
      = acc + (l.map Prod.snd).sum := by
  intro l
  induction l with
  | nil => intro acc h; exact absurd rfl h
  | cons p rest ih =>
      intro acc _
      obtain ⟨x, w⟩ := p
      by_cases hr : rest = []
      · subst hr
        show acc + w = acc + (w + 0)
        omega
      · have hlen : ((x, w) :: rest).length - 1 = rest.length - 1 + 1 := by
          have : 1 ≤ rest.length := by
            cases rest with
            | nil => exact absurd rfl hr
            | cons q qs => simp
          simp only [List.length_cons]
          omega
        have hstep : cumRanksAux ((x, w) :: rest) acc
            = (x, acc + w) :: cumRanksAux rest (acc + w) := rfl
        rw [hstep, hlen, List.getD_cons_succ]
        rw [ih (acc + w) hr]
        simp only [List.map_cons, List.sum_cons]
        omega

theorem reqIAWAux_sum : ∀ (cs : List RelCompactor) (h : Nat),
    ((reqIAWAux cs h).map Prod.snd).sum = 2 ^ h * rkw cs := by
  intro cs
  induction cs with
  | nil => intro h; simp [reqIAWAux, rkw]
  | cons c cs ih =>
      intro h
      show (((c.buf.map (fun x => (x, 2 ^ h)) ++ reqIAWAux cs (h + 1)).map
        Prod.snd)).sum = 2 ^ h * rkw (c :: cs)
      rw [List.map_append, List.sum_append, ih (h + 1)]
      have h1 : ((c.buf.map (fun x => (x, 2 ^ h))).map Prod.snd).sum
          = c.buf.length * 2 ^ h := by
        rw [List.map_map]
        have hc : (Prod.snd ∘ fun x => ((x : Int), 2 ^ h)) = fun _ => 2 ^ h := rfl
        rw [hc]
        induction c.buf with
        | nil => simp
        | cons y ys ihy =>
            show 2 ^ h + (ys.map (fun x => 2 ^ h)).sum = (ys.length + 1) * 2 ^ h
            rw [ihy]
            ring
      rw [h1]
      show c.buf.length * 2 ^ h + 2 ^ (h + 1) * rkw cs
        = 2 ^ h * (c.buf.length + 2 * rkw cs)
      rw [pow_succ]
      ring

theorem reqBsearchAux_spec (rl : List (Int × Nat)) (desired : ℝ)
    (hmono : ∀ a b, a ≤ b → b < rl.length →
      ((rl.getD a (0, 0)).2 : Nat) ≤ ((rl.getD b (0, 0)).2 : Nat)) :
    ∀ (fuel i j : Nat), i ≤ j → j ≤ rl.length → j - i ≤ fuel →
    (∀ x, x < i → (((rl.getD x (0, 0)).2 : Nat) : ℝ) < desired) →
    (∀ x, j ≤ x → x < rl.length → desired ≤ (((rl.getD x (0, 0)).2 : Nat) : ℝ)) →
    i ≤ reqBsearchAux rl desired fuel i j ∧
    reqBsearchAux rl desired fuel i j ≤ j ∧
    (∀ x, x < reqBsearchAux rl desired fuel i j →
      (((rl.getD x (0, 0)).2 : Nat) : ℝ) < desired) ∧
    (∀ x, reqBsearchAux rl desired fuel i j ≤ x → x < rl.length →
      desired ≤ (((rl.getD x (0, 0)).2 : Nat) : ℝ)) := by
  intro fuel
  induction fuel with
  | zero =>
      intro i j hij hjl hf hlow hhigh
      have hije : i = j := by omega
      subst hije
      exact ⟨le_refl _, le_refl _, hlow, hhigh⟩
  | succ fuel ih =>
      intro i j hij hjl hf hlow hhigh
      by_cases hlt : i < j
      · have hrw : reqBsearchAux rl desired (fuel + 1) i j
            = if desired > (((rl.getD ((i + j) / 2) (0, 0)).2 : Nat) : ℝ) then
                reqBsearchAux rl desired fuel ((i + j) / 2 + 1) j
              else reqBsearchAux rl desired fuel i ((i + j) / 2) := by
          show (if i < j then _ else i) = _
          rw [if_pos hlt]
        have hmi : i ≤ (i + j) / 2 := by omega
        have hmj : (i + j) / 2 < j := by omega
        by_cases hcmp : desired > (((rl.getD ((i + j) / 2) (0, 0)).2 : Nat) : ℝ)
        · rw [hrw, if_pos hcmp]
          have hlow2 : ∀ x, x < (i + j) / 2 + 1 →
              (((rl.getD x (0, 0)).2 : Nat) : ℝ) < desired := by
            intro x hx
            have hle : ((rl.getD x (0, 0)).2 : Nat) ≤ ((rl.getD ((i + j) / 2) (0, 0)).2 : Nat) :=
              hmono x ((i + j) / 2) (by omega) (by omega)
            calc (((rl.getD x (0, 0)).2 : Nat) : ℝ)
                ≤ (((rl.getD ((i + j) / 2) (0, 0)).2 : Nat) : ℝ) := by exact_mod_cast hle
            _ < desired := hcmp
          obtain ⟨h1, h2, h3, h4⟩ := ih ((i + j) / 2 + 1) j (by omega) hjl (by omega)
            hlow2 hhigh
          exact ⟨by omega, h2, h3, h4⟩
        · rw [hrw, if_neg hcmp]
          push_neg at hcmp
          have hhigh2 : ∀ x, (i + j) / 2 ≤ x → x < rl.length →
              desired ≤ (((rl.getD x (0, 0)).2 : Nat) : ℝ) := by
            intro x hx hxl
            have hle : ((rl.getD ((i + j) / 2) (0, 0)).2 : Nat) ≤ ((rl.getD x (0, 0)).2 : Nat) :=
              hmono ((i + j) / 2) x hx hxl
            calc desired ≤ (((rl.getD ((i + j) / 2) (0, 0)).2 : Nat) : ℝ) := hcmp
            _ ≤ (((rl.getD x (0, 0)).2 : Nat) : ℝ) := by exact_mod_cast hle
          obtain ⟨h1, h2, h3, h4⟩ := ih i ((i + j) / 2) hmi (by omega) (by omega)
            hlow hhigh2
          exact ⟨h1, by omega, h3, h4⟩
      · have hrw : reqBsearchAux rl desired (fuel + 1) i j = i := by
          show (if i < j then _ else i) = i
          rw [if_neg hlt]
        rw [hrw]
        have hije : i = j := by omega
        subst hije
        exact ⟨le_refl _, le_refl _, hlow, hhigh⟩

theorem req_ranks_length (st : ReqSketch) :
    st.ranks.length = (reqItemsAndWeights st.compactors).length := by
  show (cumRanksAux (List.insertionSort pairLe (reqItemsAndWeights st.compactors)) 0).length = _
  rw [cumRanksAux_length, List.length_insertionSort]

theorem req_iaw_empty : ∀ (cs : List RelCompactor) (h : Nat),
    rkw cs = 0 → reqIAWAux cs h = [] := by
  intro cs
  induction cs with
  | nil => intro h _; rfl
  | cons c cs ih =>
      intro h hz
      have hz2 : c.buf.length = 0 ∧ rkw cs = 0 := by
        have : c.buf.length + 2 * rkw cs = 0 := hz
        omega
      have hb : c.buf = [] := List.length_eq_zero.mp hz2.1
      show c.buf.map (fun x => (x, 2 ^ h)) ++ reqIAWAux cs (h + 1) = []
      rw [hb, ih (h + 1) hz2.2]
      rfl

theorem req_ranks_sum (st : ReqSketch) :
    ((List.insertionSort pairLe (reqItemsAndWeights st.compactors)).map Prod.snd).sum
      = rkw st.compactors := by
  have hperm : List.Perm
      ((List.insertionSort pairLe (reqItemsAndWeights st.compactors)).map Prod.snd)
      ((reqItemsAndWeights st.compactors).map Prod.snd) :=
    (List.perm_insertionSort pairLe (reqItemsAndWeights st.compactors)).map Prod.snd
  rw [hperm.sum_eq]
  have := reqIAWAux_sum st.compactors 0
  simpa using this

theorem req_quantile_spec (st : ReqSketch) (q : ℝ)
    (hN : rkw st.compactors = st.N) :
    (0 ≤ q → q ≤ 1 → 0 < st.N →
      ∃ i : Nat, ∃ h : i < st.ranks.length,
        st.quantile q = .ok (st.ranks.get ⟨i, h⟩).1 ∧
        q * st.N ≤ (((st.ranks.getD i (0, 0)).2 : Nat) : ℝ) ∧
        ∀ j, j < i → (((st.ranks.getD j (0, 0)).2 : Nat) : ℝ) < q * st.N) ∧
    ((q < 0 ∨ 1 < q) → st.quantile q = .error .assertionFailed) ∧
    (0 ≤ q → q ≤ 1 → st.N = 0 → st.quantile q = .error .indexError) := by
  set sl := List.insertionSort pairLe (reqItemsAndWeights st.compactors) with hsl
  have hrk : st.ranks = cumRanksAux sl 0 := rfl
  have hlen_rs : st.ranks.length = sl.length := by
    rw [hrk]; exact cumRanksAux_length sl 0
  have hsum : (sl.map Prod.snd).sum = rkw st.compactors := req_ranks_sum st
  refine ⟨?_, ?_, ?_⟩
  · intro hq0 hq1 hNpos
    have hmono : ∀ a b, a ≤ b → b < st.ranks.length →
        ((st.ranks.getD a (0, 0)).2 : Nat) ≤ ((st.ranks.getD b (0, 0)).2 : Nat) := by
      intro a b hab hb
      rw [hrk]
      rw [hrk, cumRanksAux_length] at hb
      exact cumRanksAux_mono sl 0 a b hab hb
    obtain ⟨hr1, hr2, hr3, hr4⟩ := reqBsearchAux_spec st.ranks (q * st.N) hmono
      st.ranks.length 0 st.ranks.length (by omega) (le_refl _) (by omega)
      (by intro x hx; exact absurd hx (by omega))
      (by intro x hx hxl; exact absurd (lt_of_le_of_lt hx hxl) (lt_irrefl _))
    have hsl_ne : sl ≠ [] := by
      intro he
      rw [he] at hsum
      simp at hsum
      omega
    have hlen_pos : 0 < st.ranks.length := by
      rw [hlen_rs]
      cases hc : sl with
      | nil => exact absurd hc hsl_ne
      | cons a l => simp
    have hlast : ((st.ranks.getD (st.ranks.length - 1) (0, 0)).2 : Nat) = st.N := by
      have h := cumRanksAux_last sl 0 hsl_ne
      rw [hsum, hN] at h
      rw [hrk, cumRanksAux_length]
      omega
    have hdes : q * (st.N : ℝ) ≤ (st.N : ℝ) :=
      mul_le_of_le_one_left (Nat.cast_nonneg st.N) hq1
    have hr_lt : reqBsearchAux st.ranks (q * st.N) st.ranks.length 0 st.ranks.length
        < st.ranks.length := by
      by_contra hge
      push_neg at hge
      have hx := hr3 (st.ranks.length - 1) (by omega)
      rw [hlast] at hx
      linarith
    refine ⟨reqBsearchAux st.ranks (q * st.N) st.ranks.length 0 st.ranks.length,
      hr_lt, ?_, hr4 _ (le_refl _) hr_lt, hr3⟩
    unfold ReqSketch.quantile
    rw [if_pos ⟨hq0, hq1⟩]
    dsimp only
    rw [dif_pos hr_lt]
  · intro hout
    unfold ReqSketch.quantile
    rw [if_neg (by
      intro hin
      rcases hout with h | h
      · exact absurd hin.1 (not_le.mpr h)
      · exact absurd hin.2 (not_le.mpr h))]
  · intro hq0 hq1 hN0
    have hz : rkw st.compactors = 0 := by omega
    have hiaw : reqItemsAndWeights st.compactors = [] := req_iaw_empty st.compactors 0 hz
    have hsl0 : sl = [] := by rw [hsl, hiaw]; rfl
    have hlen0 : st.ranks.length = 0 := by rw [hlen_rs, hsl0]; rfl
    unfold ReqSketch.quantile
    rw [if_pos ⟨hq0, hq1⟩]
    dsimp only
    rw [dif_neg (by omega)]

theorem kllCompactAt_lazy (coins : Nat → Bool) (st : KllS) (h : Nat) :
    (kllCompactAt coins st h).lazy = st.lazy := by
  unfold kllCompactAt kllCompactCore KllS.grow
  by_cases hg : h + 1 ≥ st.H
  · rw [if_pos hg]
  · rw [if_neg hg]

theorem kllCompressAux_lazy_char (coins : Nat → Bool) :
    ∀ (n : Nat) (st : KllS) (h : Nat), st.lazy = true →
      kllCompressAux coins st h n =
        (match kllFindOverAux st h n with
         | none => st
         | some g => kllCompactAt coins st g) := by
  intro n
  induction n with
  | zero => intro st h _; rfl
  | succ n ih =>
      intro st h hl
      rw [kllCompressAux]
      by_cases hov : (st.compactors.getD h default).buf.length
          ≥ kllCapacity st.k st.c st.H h
      · rw [if_pos hov]
        have hfo : kllFindOverAux st h (n + 1) = some h := by
          rw [kllFindOverAux, if_pos hov]
        rw [hfo]
        dsimp only
        rw [if_pos (by rw [kllCompactAt_lazy]; exact hl)]
      · rw [if_neg hov]
        have hfo : kllFindOverAux st h (n + 1) = kllFindOverAux st (h + 1) n := by
          rw [kllFindOverAux, if_neg hov]
        rw [hfo]
        exact ih st (h + 1) hl

/-- A lazy `KLL.compress` compacts the first level at capacity and then
returns unconditionally, whether or not `size < maxSize` holds. -/
theorem kll_compress_lazy_char (coins : Nat → Bool) (st : KllS)
    (hl : st.lazy = true) :
    st.compress coins =
      (match kllFindOver st with
       | none => st
       | some g => kllCompactAt coins st g) := by
  unfold KllS.compress kllFindOver
  exact kllCompressAux_lazy_char coins st.compactors.length st 0 hl

/-! ### GDE bookkeeping -/
theorem gExtendAt_length (em : List (List ℝ)) :
    ∀ (cs : List (List (List ℝ))) (h : Nat), (gExtendAt em cs h).length = cs.length := by
  intro cs
  induction cs with
  | nil => intro h; rfl
  | cons c cs ih =>
      intro h
      cases h with
      | zero => rfl
      | succ h =>
          show (gExtendAt em cs h).length + 1 = cs.length + 1
          rw [ih h]

theorem gSumLen_extendAt_zero (v : List ℝ) :
    ∀ (cs : List (List (List ℝ))), cs ≠ [] →
      gSumLen (gExtendAt [v] cs 0) = gSumLen cs + 1 := by
  intro cs hne
  cases cs with
  | nil => exact absurd rfl hne
  | cons c cs =>
      show (c ++ [v]).length + (cs.map List.length).sum
        = c.length + (cs.map List.length).sum + 1
      rw [List.length_append]
      simp
      omega

theorem gZipExtend_length : ∀ (cs os : List (List (List ℝ))),
    os.length ≤ cs.length → (gZipExtend cs os).length = cs.length := by
  intro cs
  induction cs with
  | nil =>
      intro os hle
      cases os with
      | nil => rfl
      | cons o os => exact absurd hle (by simp)
  | cons c cs ih =>
      intro os hle
      cases os with
      | nil => rfl
      | cons o os =>
          show (gZipExtend cs os).length + 1 = cs.length + 1
          rw [ih os (by simpa using hle)]

theorem gPad_length (cs : List (List (List ℝ))) (target : Nat) :
    (gPad cs target).length = max cs.length target := by
  unfold gPad
  rw [List.length_append, List.length_replicate]
  omega

theorem gflc_length (k : Int) (cs cs2 : List (List (List ℝ)))
    (h : GFLC k cs cs2) : cs.length ≤ cs2.length := by
  cases h with
  | noCompaction => exact le_refl _
  | found _a h em hh2 hover hfirst hcompact hcs2 =>
      rw [hcs2, gExtendAt_length, List.length_set]
      by_cases hg : cs.length - 1 ≤ h
      · rw [if_pos hg]; simp
      · rw [if_neg hg]

theorem gwhile_GInv : ∀ {g g2 : GDE}, GWhile g g2 → GInv g → GInv g2 := by
  intro g g2 h
  induction h with
  | done g _ => exact id
  | step g cs2 g2 hge hflc _ ih =>
      intro hinv
      refine ih ⟨?_, rfl⟩
      have h1 : g.compactors.length ≤ cs2.length := gflc_length _ _ _ hflc
      have h2 : 0 < g.compactors.length := by
        cases hc : g.compactors with
        | nil => exact absurd hc hinv.1
        | cons a l => simp
      show cs2 ≠ []
      intro he
      rw [he] at h1
      simp only [List.length_nil] at h1
      omega

theorem gupdate_GInv {g : GDE} {v : List ℝ} {g2 : GDE}
    (h : GUpdate g v g2) (hinv : GInv g) : GInv g2 := by
  cases h with
  | mk g1 g2 hd hw hg2 =>
      have h1 : GInv g1 := gwhile_GInv hw ⟨hinv.1, hinv.2⟩
      subst hg2
      constructor
      · show gExtendAt [v] g1.compactors 0 ≠ []
        intro he
        have := gExtendAt_length [v] g1.compactors 0
        rw [he] at this
        have h2 : 0 < g1.compactors.length := by
          cases hc : g1.compactors with
          | nil => exact absurd hc h1.1
          | cons a l => simp
        simp at this
        omega
      · show g1.size + 1 = gSumLen (gExtendAt [v] g1.compactors 0)
        rw [gSumLen_extendAt_zero v g1.compactors h1.1, h1.2]

theorem gmerge_GInv {g other g2 : GDE}
    (h : GMerge g other g2) (hinv : GInv g) : GInv g2 := by
  cases h with
  | otherEmpty => exact hinv
  | mk dv cs1 g2 g3 hod hd hcs1 hg2 hw =>
      refine gwhile_GInv hw ?_
      subst hg2
      refine ⟨?_, rfl⟩
      show cs1 ≠ []
      rw [hcs1]
      intro he
      have hlen : (gZipExtend (gPad g.compactors other.compactors.length)
          other.compactors).length = (gPad g.compactors other.compactors.length).length := by
        apply gZipExtend_length
        rw [gPad_length]
        omega
      rw [he] at hlen
      rw [gPad_length] at hlen
      have h2 : 0 < g.compactors.length := by
        cases hc : g.compactors with
        | nil => exact absurd hc hinv.1
        | cons a l => simp
      simp at hlen
      omega

/-- Reachable GDE states keep `size = Σ |compactors[h]|` (but not
`size < max_size`; see the C1 counterexample). -/
theorem greach_GInv : ∀ {g : GDE}, GReach g → GInv g := by
  intro g h
  induction h with
  | init k => exact ⟨by simp [gInit], rfl⟩
  | update g v g2 _ hu ih => exact gupdate_GInv hu ih
  | merge g other g2 _ _ hm ih _ => exact gmerge_GInv hm ih

theorem gB1_reach : GReach gB1 :=
  GReach.update (gInit 1) [0] gB1 (GReach.init 1)
    (GUpdate.mk (gInit 1) [0] { gInit 1 with d := some 1 } gB1 (Or.inl rfl)
      (GWhile.done _ (by decide))
      (by rfl))

theorem gB3_reach : GReach gB3 := by
  refine GReach.update gB1 [1] gB3 gB1_reach ?_
  refine GUpdate.mk gB1 [1]
    { gB1 with compactors := [[], [[(0 : ℝ)]]], max_size := 2, size := 1 } gB3
    (Or.inr rfl) ?_ (by rfl)
  refine GWhile.step gB1 [[], [[(0 : ℝ)]]] _ (by decide) ?_ ?_
  · refine GFLC.found 1 gB1.compactors [[], [[(0 : ℝ)]]] 0 [[(0 : ℝ)]]
      (by decide) (by decide) (by intro g hg; exact absurd hg (Nat.not_lt_zero g))
      ?_ (by rfl)
    refine GCompact.mk [[(0 : ℝ)]] [[(0 : ℝ)]] [[(0 : ℝ)]] 1
      (List.Perm.refl _) (Or.inl rfl) ?_
    show [[(0 : ℝ)]] = if (0 : ℝ) ≤ 1 then [[(0 : ℝ)]] else []
    rw [if_pos (by norm_num : (0 : ℝ) ≤ 1)]
  · exact GWhile.done _ (by decide)

theorem gAM_reach : GReach gAM := by
  refine GReach.merge (gInit 5) gB3 gAM (GReach.init 5) gB3_reach ?_
  refine GMerge.mk (gInit 5) gB3 1 gAM.compactors gAM gAM rfl (Or.inl ⟨rfl, rfl⟩)
    (by rfl) (by rfl) (GWhile.done _ (by decide))

theorem reqTotalWeight_eq_rkw : ∀ cs : List RelCompactor, reqTotalWeight cs = rkw cs := by
  intro cs
  induction cs with
  | nil => rfl
  | cons c cs ih =>
      unfold reqTotalWeight rkw
      rw [List.length_cons, List.range_succ_eq_map, List.map_cons, List.sum_cons,
        List.map_map]
      have hmap : ((List.range cs.length).map
            ((fun h => 2 ^ h * ((c :: cs).getD h default).buf.length) ∘ Nat.succ))
          = (List.range cs.length).map
            (fun h => 2 * (2 ^ h * (cs.getD h default).buf.length)) := by
        apply List.map_congr_left
        intro g _
        show 2 ^ (g + 1) * ((c :: cs).getD (g + 1) default).buf.length = _
        rw [List.getD_cons_succ]
        ring
      rw [hmap, sum_map_double, ← ih]
      unfold reqTotalWeight
      simp

theorem kllCapacity_one (H h : Nat) : kllCapacity 1 1 H h = 2 := by
  unfold kllCapacity
  norm_num

theorem kllMaxSizeOf_one_one : kllMaxSizeOf 1 1 1 = 2 := by
  unfold kllMaxSizeOf
  rw [show List.range 1 = [0] from rfl]
  simp only [List.map_cons, List.map_nil, List.sum_cons, List.sum_nil]
  rw [kllCapacity_one]
  rfl

theorem kllMaxSizeOf_one_two : kllMaxSizeOf 1 1 2 = 4 := by
  unfold kllMaxSizeOf
  rw [show List.range 2 = [0, 1] from rfl]
  simp only [List.map_cons, List.map_nil, List.sum_cons, List.sum_nil]
  rw [kllCapacity_one, kllCapacity_one]
  rfl

theorem kllInit_eval : kllInit 1 1 true true = .ok stK0 := by
  unfold kllInit
  rw [if_neg (by norm_num : ¬ (1 : Int) ≤ 0),
      if_neg (by norm_num : ¬ ((1 : ℚ) ≤ 1 / 2 ∨ 1 < (1 : ℚ)))]
  rw [show KllS.grow
      { k := (1 : Int).toNat, c := 1, lazy := true, alternate := true,
        compactors := [], H := 0, size := 0, maxSize := 0, rng := 0 }
      = { stK0 with maxSize := kllMaxSizeOf 1 1 1 } from rfl]
  rw [kllMaxSizeOf_one_one]
  rfl

theorem stK1_eval : stK0.update coinsF 3 = stK1 := rfl

theorem stK2_eval : stK1.update coinsF 5 = stK2 := by
  have h1 : stK1.update coinsF 5 = KllS.compress coinsF stK1b := rfl
  have hcond : (stK1b.compactors.getD 0 default).buf.length
      ≥ kllCapacity stK1b.k stK1b.c stK1b.H 0 := by
    show 2 ≥ kllCapacity 1 1 1 0
    rw [kllCapacity_one]
  have h2 : KllS.compress coinsF stK1b
      = (if (stK1b.compactors.getD 0 default).buf.length
            ≥ kllCapacity stK1b.k stK1b.c stK1b.H 0
         then (if (kllCompactAt coinsF stK1b 0).lazy = true
               then kllCompactAt coinsF stK1b 0
               else kllCompressAux coinsF (kllCompactAt coinsF stK1b 0) 1 0)
         else kllCompressAux coinsF stK1b 1 0) := rfl
  rw [h1, h2, if_pos hcond,
      if_pos (show (kllCompactAt coinsF stK1b 0).lazy = true from rfl)]
  rw [show kllCompactAt coinsF stK1b 0
      = { stK2 with maxSize := kllMaxSizeOf 1 1 2 } from rfl]
  rw [kllMaxSizeOf_one_two]
  rfl

theorem stK2_reach : KReach stK2 2 := by
  have h0 : KReach stK0 0 := KReach.init 1 1 true true stK0 kllInit_eval
  have h1 : KReach stK1 1 := by
    have h := KReach.update coinsF stK0 0 3 h0
    rwa [stK1_eval] at h
  have h2 := KReach.update coinsF stK1 1 5 h1
  rwa [stK2_eval] at h2

theorem stK0_KBase : KBase stK0 := by
  refine ⟨rfl, ?_, rfl, le_refl 1, by show (1 : ℚ) / 2 < 1; norm_num, le_refl 1,
    le_refl 1⟩
  show (2 : Nat) = kllMaxSizeOf 1 1 1
  rw [kllMaxSizeOf_one_one]

theorem stC4_eval : stC4.compress coinsF = stC4c := by
  have hcond : (stC4.compactors.getD 0 default).buf.length
      ≥ kllCapacity stC4.k stC4.c stC4.H 0 := by
    show 4 ≥ kllCapacity 1 1 2 0
    rw [kllCapacity_one]
    norm_num
  have h2 : KllS.compress coinsF stC4
      = (if (stC4.compactors.getD 0 default).buf.length
            ≥ kllCapacity stC4.k stC4.c stC4.H 0
         then (if (kllCompactAt coinsF stC4 0).lazy = true
               then kllCompactAt coinsF stC4 0
               else kllCompressAux coinsF (kllCompactAt coinsF stC4 0) 1 1)
         else kllCompressAux coinsF stC4 1 1) := rfl
  rw [h2, if_pos hcond,
      if_pos (show (kllCompactAt coinsF stC4 0).lazy = true from rfl)]
  rfl

theorem stRQ0_eval : reqInit 4 = .ok stRQ0 := rfl

theorem stRQ1_eval : stRQ0.update coinsF 7 = .ok stRQ1 := rfl

theorem stRQ1_reach : RReach stRQ1 :=
  RReach.update coinsF stRQ0 7 stRQ1 (RReach.init 4 stRQ0 stRQ0_eval) stRQ1_eval

/-! ### GDE stored weight along compaction-free runs -/

theorem gTotalWeight_eq_gw : ∀ cs : List (List (List ℝ)), gTotalWeight cs = gw cs := by
  intro cs
  induction cs with
  | nil => rfl
  | cons c cs ih =>
      unfold gTotalWeight gw
      rw [List.length_cons, List.range_succ_eq_map, List.map_cons, List.sum_cons,
        List.map_map]
      have hmap : ((List.range cs.length).map
            ((fun h => 2 ^ h * ((c :: cs).getD h []).length) ∘ Nat.succ))
          = (List.range cs.length).map
            (fun h => 2 * (2 ^ h * (cs.getD h []).length)) := by
        apply List.map_congr_left
        intro g _
        show 2 ^ (g + 1) * ((c :: cs).getD (g + 1) []).length = _
        rw [List.getD_cons_succ]
        ring
      rw [hmap, sum_map_double, ← ih]
      unfold gTotalWeight
      simp

theorem gw_extendAt_zero (v : List ℝ) :
    ∀ cs : List (List (List ℝ)), cs ≠ [] →
      gw (gExtendAt [v] cs 0) = gw cs + 1 := by
  intro cs hne
  cases cs with
  | nil => exact absurd rfl hne
  | cons c cs =>
      show (c ++ [v]).length + 2 * gw cs = c.length + 2 * gw cs + 1
      rw [List.length_append, List.length_singleton]
      omega

theorem gw_replicate : ∀ m : Nat, gw (List.replicate m ([] : List (List ℝ))) = 0 := by
  intro m
  induction m with
  | zero => rfl
  | succ m ih =>
      show ([] : List (List ℝ)).length + 2 * gw (List.replicate m []) = 0
      rw [ih]
      rfl

theorem gw_append_replicate :
    ∀ (cs : List (List (List ℝ))) (m : Nat),
      gw (cs ++ List.replicate m []) = gw cs := by
  intro cs
  induction cs with
  | nil =>
      intro m
      show gw (List.replicate m []) = 0
      exact gw_replicate m
  | cons c cs ih =>
      intro m
      show c.length + 2 * gw (cs ++ List.replicate m []) = c.length + 2 * gw cs
      rw [ih m]

theorem gw_pad (cs : List (List (List ℝ))) (target : Nat) :
    gw (gPad cs target) = gw cs := by
  unfold gPad
  exact gw_append_replicate cs (target - cs.length)

theorem gw_zipExtend : ∀ (cs os : List (List (List ℝ))),
    os.length ≤ cs.length → gw (gZipExtend cs os) = gw cs + gw os := by
  intro cs
  induction cs with
  | nil =>
      intro os h
      cases os with
      | nil => rfl
      | cons o os => exact absurd h (by simp)
  | cons c cs ih =>
      intro os h
      cases os with
      | nil =>
          show gw (c :: cs) = gw (c :: cs) + gw ([] : List (List (List ℝ)))
          show gw (c :: cs) = gw (c :: cs) + 0
          omega
      | cons o os =>
          show (c ++ o).length + 2 * gw (gZipExtend cs os)
            = (c.length + 2 * gw cs) + (o.length + 2 * gw os)
          rw [List.length_append, ih os (by simpa using h)]
          ring

theorem gwhileNC_frame : ∀ {g g2 : GDE}, GWhileNC g g2 →
    g2.compactors = g.compactors ∧ g2.n = g.n := by
  intro g g2 h
  induction h with
  | done g _ => exact ⟨rfl, rfl⟩
  | step g g2 _ _ _ ih => exact ih

/-- Along a compaction-free run the compactor list stays nonempty and
the stored weight equals the stream count `n`. -/
theorem greachNC_weight : ∀ {g : GDE}, GReachNC g →
    g.compactors ≠ [] ∧ gw g.compactors = g.n := by
  intro g h
  induction h with
  | init k => exact ⟨by simp [gInit], rfl⟩
  | update g v g2 _ hu ih =>
      cases hu with
      | mk g1 g2 hd hw hg2 =>
          obtain ⟨hcs0, hn0⟩ := gwhileNC_frame hw
          have hcs : g1.compactors = g.compactors := hcs0
          have hn : g1.n = g.n := hn0
          have hne1 : g1.compactors ≠ [] := by rw [hcs]; exact ih.1
          subst hg2
          constructor
          · show gExtendAt [v] g1.compactors 0 ≠ []
            intro he
            have hlen := gExtendAt_length [v] g1.compactors 0
            rw [he] at hlen
            have h2 : 0 < g1.compactors.length := by
              cases hc2 : g1.compactors with
              | nil => exact absurd hc2 hne1
              | cons a l => simp
            simp at hlen
            omega
          · show gw (gExtendAt [v] g1.compactors 0) = g1.n + 1
            rw [gw_extendAt_zero v g1.compactors hne1, hcs, ih.2, hn]
  | merge g other g2 _ _ hm ih iho =>
      cases hm with
      | otherEmpty _ _ => exact ih
      | mk dv cs1 gmid gX hod hd hcs1 hg2 hw =>
          obtain ⟨hcs0, hn0⟩ := gwhileNC_frame hw
          subst hg2
          have hcs : g2.compactors = cs1 := hcs0
          have hn : g2.n = g.n + other.n := hn0
          have hle : other.compactors.length
              ≤ (gPad g.compactors other.compactors.length).length := by
            rw [gPad_length]
            omega
          constructor
          · rw [hcs, hcs1]
            intro he
            have hlen : (gZipExtend (gPad g.compactors other.compactors.length)
                other.compactors).length
                = (gPad g.compactors other.compactors.length).length :=
              gZipExtend_length _ _ hle
            rw [he, gPad_length] at hlen
            have h2 : 0 < g.compactors.length := by
              cases hc2 : g.compactors with
              | nil => exact absurd hc2 ih.1
              | cons a l => simp
            simp at hlen
            omega
          · rw [hcs, hcs1, gw_zipExtend _ _ hle, gw_pad, ih.2, iho.2, hn]

/-- `gB1` is reached without any compaction. -/
theorem gB1_reachNC : GReachNC gB1 :=
  GReachNC.update (gInit 1) [0] gB1 (GReachNC.init 1)
    (GUpdateNC.mk (gInit 1) [0] { gInit 1 with d := some 1 } gB1 (Or.inl rfl)
      (GWhileNC.done _ (by decide))
      (by rfl))

/-! ## The claims -/
/-- C1 (corrected): after every completed public operation, KLL and Req
sketches satisfy `size = Σ_h |compactors[h]|` and `size < maxSize`; a
GDE sketch keeps only the accounting identity `size = Σ_h |compactors[h]|`
and can end an update with `size = max_size`. -/
theorem C1_size_invariant :
    (∀ (st : KllS) (n : Nat), KReach st n →
      st.size = ksumLen st.compactors ∧ st.size < st.maxSize) ∧
    (∀ st : ReqSketch, RReach st →
      st.size = rsumLen st.compactors ∧ st.size < st.maxNomSize) ∧
    (∀ g : GDE, GReach g → g.size = gSumLen g.compactors) := by
  refine ⟨?_, ?_, ?_⟩
  · intro st n h
    obtain ⟨hb, hlt⟩ := kll_reach_inv h
    exact ⟨hb.2.2.1, hlt⟩
  · intro st h
    obtain ⟨_, hsz, hlt, _⟩ := req_reach_inv h
    exact ⟨hsz, hlt⟩
  · intro g h
    exact (greach_GInv h).2

theorem C1_witness :
    KReach stK2 2 ∧ RReach stRQ1 ∧ GReach gB1 ∧
    (stK2.size = ksumLen stK2.compactors ∧ stK2.size < stK2.maxSize) ∧
    (stRQ1.size = rsumLen stRQ1.compactors ∧ stRQ1.size < stRQ1.maxNomSize) ∧
    gB1.size = gSumLen gB1.compactors :=
  ⟨stK2_reach, stRQ1_reach, gB1_reach,
    C1_size_invariant.1 stK2 2 stK2_reach,
    C1_size_invariant.2.1 stRQ1 stRQ1_reach,
    C1_size_invariant.2.2 gB1 gB1_reach⟩

/-- C1 counterexample: the reachable GDE state after
`GDE(1).update([0.0])` has `size = max_size = 1`, violating the claimed
strict bound for GDE. -/
theorem C1_counterexample :
    GReach gB1 ∧ ¬ ((gB1.size : Int) < gB1.max_size) :=
  ⟨gB1_reach, by decide⟩

/-- C2 (corrected): the stored weight `Σ_h 2^h·|compactors[h]|` equals
the stream count when no compaction has occurred, for all three
sketches; but for KLL and Req it stays exactly equal after compactions
too — it never becomes strictly less — and for GDE a compaction does
not preserve the weight at all (it can exceed the stream count; see the
counterexample). -/
theorem C2_total_weight :
    (∀ (st : KllS) (n : Nat), KReach st n → kllTotalWeight st.compactors = n) ∧
    (∀ st : ReqSketch, RReach st → reqTotalWeight st.compactors = st.N) ∧
    (∀ g : GDE, GReachNC g → gTotalWeight g.compactors = g.n) := by
  refine ⟨?_, ?_, ?_⟩
  · intro st n h
    rw [kllTotalWeight_eq_kw]
    exact kll_reach_kw h
  · intro st h
    rw [reqTotalWeight_eq_rkw]
    exact (req_reach_inv h).2.2.2
  · intro g h
    rw [gTotalWeight_eq_gw]
    exact (greachNC_weight h).2

theorem C2_witness :
    KReach stK2 2 ∧ RReach stRQ1 ∧ GReachNC gB1 ∧
    kllTotalWeight stK2.compactors = 2 ∧
    reqTotalWeight stRQ1.compactors = stRQ1.N ∧
    gTotalWeight gB1.compactors = gB1.n :=
  ⟨stK2_reach, stRQ1_reach, gB1_reachNC,
    C2_total_weight.1 stK2 2 stK2_reach,
    C2_total_weight.2.1 stRQ1 stRQ1_reach,
    C2_total_weight.2.2 gB1 gB1_reachNC⟩

/-- C2 counterexample: after two updates into `KLL(1, c=1)` one
compaction has run (`numCompaction = 1` at level 0), yet the stored
weight still equals the stream count 2 — not strictly less.  And the
reachable GDE state `gB3` (two updates into `GDE(1)`, whose single-item
compaction keeps the item with a positive sign) cannot be reached
without a compaction, yet its stored weight is 3 > 2 = n — not strictly
less either. -/
theorem C2_counterexample :
    KReach stK2 2 ∧ (stK2.compactors.getD 0 default).numCompaction = 1 ∧
    kllTotalWeight stK2.compactors = 2 ∧
    GReach gB3 ∧ ¬ GReachNC gB3 ∧ gB3.n = 2 ∧
    gTotalWeight gB3.compactors = 3 :=
  ⟨stK2_reach, rfl, by decide, gB3_reach,
    fun h => absurd (greachNC_weight h).2 (by decide), rfl, by decide⟩

/-- C4 (corrected): a lazy Req compress stops early only when
`size < maxNomSize` holds at that point and otherwise agrees with the
eager compress; a lazy KLL compress, however, compacts the first level
at capacity and then stops unconditionally. -/
theorem C4_lazy_break :
    (∀ (coins : Nat → Bool) (st : KllS), st.lazy = true →
      st.compress coins =
        (match kllFindOver st with
         | none => st
         | some g => kllCompactAt coins st g)) ∧
    (∀ (coins : Nat → Bool) (st st2 : ReqSketch),
      st.compress coins true = .ok st2 →
      st2.size < st2.maxNomSize ∨ st.compress coins false = .ok st2) :=
  ⟨kll_compress_lazy_char, req_compress_lazy_break⟩

theorem C4_witness :
    stC4.lazy = true ∧ stRQ0.compress coinsF true = .ok stRQ0 ∧
    (stC4.compress coinsF =
      (match kllFindOver stC4 with
       | none => stC4
       | some g => kllCompactAt coinsF stC4 g)) ∧
    (stRQ0.size < stRQ0.maxNomSize ∨ stRQ0.compress coinsF false = .ok stRQ0) :=
  ⟨rfl, rfl, C4_lazy_break.1 coinsF stC4 rfl, C4_lazy_break.2 coinsF stRQ0 stRQ0 rfl⟩

/-- C4 counterexample: on the lazy state `stC4` with both levels at
capacity, `compress` returns with `size = 6 ≥ 4 = maxSize` and level 1
still at capacity — it does not continue to the next overflowing
level. -/
theorem C4_counterexample :
    stC4.lazy = true ∧ stC4.compress coinsF = stC4c ∧
    stC4c.maxSize ≤ stC4c.size ∧
    kllCapacity stC4c.k stC4c.c stC4c.H 1
      ≤ (stC4c.compactors.getD 1 default).buf.length := by
  refine ⟨rfl, stC4_eval, by decide, ?_⟩
  show kllCapacity 1 1 2 1 ≤ 6
  rw [kllCapacity_one]
  norm_num

/-- C5 (corrected): `KLL.__init__` rejects `k ≤ 0` and `c ∉ (1/2, 1]`
with `InvalidParameter` (ValueError); `RelativeErrorSketch.__init__`
performs no validation, and `k ≤ 0` instead dies on the `cap > 1`
assert inside `nomCapacity` (AssertionError).  Valid parameters give
exactly one empty height-0 compactor. -/
theorem C5_constructor_validation :
    (∀ (k : Int) (c : ℚ) (lz alt : Bool), (k ≤ 0 ∨ c ≤ 1 / 2 ∨ 1 < c) →
      kllInit k c lz alt = .error .invalidParameter) ∧
    (∀ k : Int, k ≤ 0 → reqInit k = .error .assertionFailed) ∧
    (∀ (k : Int) (c : ℚ) (lz alt : Bool), 0 < k → 1 / 2 < c → c ≤ 1 →
      ∃ st, kllInit k c lz alt = .ok st ∧ st.compactors = [⟨[], 0, 0, alt⟩]) ∧
    (∀ k : Int, 0 < k →
      ∃ st, reqInit k = .ok st ∧ st.compactors = [freshRel k.toNat 0] ∧
        (freshRel k.toNat 0).buf = []) := by
  refine ⟨?_, ?_, ?_, ?_⟩
  · intro k c lz alt h
    unfold kllInit
    rcases h with h | h
    · rw [if_pos h]
    · by_cases h1 : k ≤ 0
      · rw [if_pos h1]
      · rw [if_neg h1, if_pos h]
  · intro k hk
    unfold reqInit
    rw [if_pos hk]
  · intro k c lz alt hk hc1 hc2
    unfold kllInit
    rw [if_neg (by omega), if_neg (by
      intro hcon
      rcases hcon with h | h
      · exact absurd hc1 (not_lt.mpr h)
      · exact absurd hc2 (not_le.mpr h))]
    exact ⟨_, rfl, rfl⟩
  · intro k hk
    unfold reqInit
    rw [if_neg (by omega)]
    unfold ReqSketch.grow reqUpdateMaxNomSizeE
    rw [if_pos (by
      simp only [List.nil_append, List.all_cons, List.all_nil, Bool.and_true,
        decide_eq_true_eq]
      show 1 < (freshRel k.toNat 0).nomCapacity
      show 1 < 2 * INIT_NUMBER_OF_SECTIONS * k.toNat
      show 1 < 2 * 3 * k.toNat
      omega)]
    exact ⟨_, rfl, rfl, rfl⟩

theorem C5_witness :
    ((0 : Int) ≤ 0 ∨ (1 : ℚ) ≤ 1 / 2 ∨ 1 < (1 : ℚ)) ∧
    kllInit 0 1 true true = .error .invalidParameter ∧
    reqInit 0 = .error .assertionFailed ∧
    (∃ st, kllInit 1 1 true true = .ok st ∧ st.compactors = [⟨[], 0, 0, true⟩]) ∧
    (∃ st, reqInit 4 = .ok st ∧ st.compactors = [freshRel (4 : Int).toNat 0] ∧
      (freshRel (4 : Int).toNat 0).buf = []) :=
  ⟨Or.inl (le_refl 0),
   C5_constructor_validation.1 0 1 true true (Or.inl (le_refl 0)),
   C5_constructor_validation.2.1 0 (le_refl 0),
   C5_constructor_validation.2.2.1 1 1 true true (by norm_num) (by norm_num)
     (le_refl 1),
   C5_constructor_validation.2.2.2 4 (by norm_num)⟩

/-- C5 counterexample: `RelativeErrorSketch(0)` fails with the
`cap > 1` assert (AssertionError), not with `InvalidParameter`. -/
theorem C5_counterexample :
    reqInit 0 = .error .assertionFailed ∧
    reqInit 0 ≠ .error .invalidParameter := by
  refine ⟨rfl, ?_⟩
  intro h
  rw [show reqInit 0 = Except.error SkErr.assertionFailed from rfl] at h
  injection h with h1
  exact absurd h1 (by decide)

/-- C6 (corrected): on a reachable Req sketch with `N > 0` and
`q ∈ [0,1]`, `quantile(q)` returns the item of the first `ranks()`
entry whose cumulative rank is at least `q·N`; `q ∉ [0,1]` fails the
leading `assert` (AssertionError, not InvalidParameter); and `N = 0`
hits `ranks[i]` out of range (IndexError, not an EmptySketch error). -/
theorem C6_quantile (st : ReqSketch) (q : ℝ) (hr : RReach st) :
    (0 ≤ q → q ≤ 1 → 0 < st.N →
      ∃ i : Nat, ∃ h : i < st.ranks.length,
        st.quantile q = .ok (st.ranks.get ⟨i, h⟩).1 ∧
        q * st.N ≤ (((st.ranks.getD i (0, 0)).2 : Nat) : ℝ) ∧
        ∀ j, j < i → (((st.ranks.getD j (0, 0)).2 : Nat) : ℝ) < q * st.N) ∧
    ((q < 0 ∨ 1 < q) → st.quantile q = .error .assertionFailed) ∧
    (0 ≤ q → q ≤ 1 → st.N = 0 → st.quantile q = .error .indexError) :=
  req_quantile_spec st q (req_reach_inv hr).2.2.2

theorem C6_witness :
    RReach stRQ1 ∧
    ((0 ≤ (1 / 2 : ℝ) → (1 / 2 : ℝ) ≤ 1 → 0 < stRQ1.N →
      ∃ i : Nat, ∃ h : i < stRQ1.ranks.length,
        stRQ1.quantile (1 / 2) = .ok (stRQ1.ranks.get ⟨i, h⟩).1 ∧
        (1 / 2 : ℝ) * stRQ1.N ≤ (((stRQ1.ranks.getD i (0, 0)).2 : Nat) : ℝ) ∧
        ∀ j, j < i →
          (((stRQ1.ranks.getD j (0, 0)).2 : Nat) : ℝ) < (1 / 2 : ℝ) * stRQ1.N) ∧
    (((1 / 2 : ℝ) < 0 ∨ 1 < (1 / 2 : ℝ)) →
      stRQ1.quantile (1 / 2) = .error .assertionFailed) ∧
    (0 ≤ (1 / 2 : ℝ) → (1 / 2 : ℝ) ≤ 1 → stRQ1.N = 0 →
      stRQ1.quantile (1 / 2) = .error .indexError)) :=
  ⟨stRQ1_reach, C6_quantile stRQ1 (1 / 2) stRQ1_reach⟩

/-- C6 counterexample: on the reachable fresh sketch `stRQ0` (`N = 0`),
`quantile(2)` raises AssertionError — not InvalidParameter — and
`quantile(1/2)` raises IndexError — not an EmptySketch error. -/
theorem C6_counterexample :
    RReach stRQ0 ∧
    stRQ0.quantile 2 = .error .assertionFailed ∧
    stRQ0.quantile (1 / 2) = .error .indexError ∧
    SkErr.assertionFailed ≠ SkErr.invalidParameter := by
  refine ⟨RReach.init 4 stRQ0 stRQ0_eval, ?_, ?_, by decide⟩
  · exact (req_quantile_spec stRQ0 2 rfl).2.1 (Or.inr (by norm_num))
  · exact (req_quantile_spec stRQ0 (1 / 2) rfl).2.2 (by norm_num) (by norm_num) rfl

/-- C7: in every Req compaction whose buffer is at nominal capacity —
with either small sections (`sectionSize < 4`, where the code skips the
schedule asserts and the counters may exceed `2^(numSections−1)`) or the
deterministic schedule within its asserted bounds — the parity-adjusted
start index `s` satisfies `s ≥ cap/2 − 1` and `s < |buf| − 1`, so the
lower half of the buffer is never compacted, and `compact` completes
without failing an assert. -/
theorem C7_compaction_start_bounds (co : RelCompactor) (coin : Bool)
    (hcap : 1 < co.nomCapacity)
    (hlen : co.nomCapacity ≤ co.buf.length)
    (hns : 2 ≤ co.numSections)
    (hsched : co.sectionSize < SMALLEST_MEANINGFUL_SECTION_SIZE
      ∨ (co.numCompactions ≤ 2 ^ (co.numSections - 1)
          ∧ co.state ≤ 2 ^ (co.numSections - 1))) :
    ((co.nomCapacity / 2 : Nat) : Int) - 1 ≤ reqCompactSAdj co co.buf.length ∧
    reqCompactSAdj co co.buf.length < (co.buf.length : Int) - 1 ∧
    ∃ pr, co.compact coin = .ok pr := by
  obtain ⟨h1, h2⟩ := req_compact_s_bounds co co.buf.length hcap hlen hns
    (hsched.imp (fun h => h) (fun h => h.2))
  refine ⟨h1, h2, ?_⟩
  unfold RelCompactor.compact
  dsimp only
  rw [if_neg (not_not_intro hcap), if_neg (not_not_intro hlen),
      if_neg (not_not_intro hsched),
      if_neg (not_not_intro h2), if_neg (not_not_intro h1)]
  exact ⟨_, rfl⟩

theorem C7_witness :
    (1 < coC7.nomCapacity ∧ coC7.nomCapacity ≤ coC7.buf.length ∧
      2 ≤ coC7.numSections ∧
      (coC7.sectionSize < SMALLEST_MEANINGFUL_SECTION_SIZE
        ∨ (coC7.numCompactions ≤ 2 ^ (coC7.numSections - 1)
            ∧ coC7.state ≤ 2 ^ (coC7.numSections - 1)))) ∧
    (1 < coC7s.nomCapacity ∧ coC7s.nomCapacity ≤ coC7s.buf.length ∧
      2 ≤ coC7s.numSections ∧
      coC7s.sectionSize < SMALLEST_MEANINGFUL_SECTION_SIZE ∧
      ¬ coC7s.state ≤ 2 ^ (coC7s.numSections - 1) ∧
      ¬ coC7s.numCompactions ≤ 2 ^ (coC7s.numSections - 1)) ∧
    (((coC7.nomCapacity / 2 : Nat) : Int) - 1 ≤ reqCompactSAdj coC7 coC7.buf.length ∧
      reqCompactSAdj coC7 coC7.buf.length < (coC7.buf.length : Int) - 1 ∧
      ∃ pr, coC7.compact false = .ok pr) ∧
    (((coC7s.nomCapacity / 2 : Nat) : Int) - 1
        ≤ reqCompactSAdj coC7s coC7s.buf.length ∧
      reqCompactSAdj coC7s coC7s.buf.length < (coC7s.buf.length : Int) - 1 ∧
      ∃ pr, coC7s.compact false = .ok pr) :=
  ⟨⟨by decide, by decide, by decide, by decide⟩,
    ⟨by decide, by decide, by decide, by decide, by decide, by decide⟩,
    C7_compaction_start_bounds coC7 false (by decide) (by decide) (by decide)
      (by decide),
    C7_compaction_start_bounds coC7s false (by decide) (by decide) (by decide)
      (Or.inl (by decide))⟩

/-- C8: the compactor-level merge ORs the schedule states, adds the
compaction counts, concatenates the buffers, and re-evaluates section
doubling (doubling `numSections`, dividing `sectionSizeF` by `√2` and
truncating `sectionSize`, exactly when the summed `numCompactions`
reaches `2^(numSections−1)`). -/
theorem C8_compactor_merge (co other : RelCompactor) :
    (co.mergeIntoSelf other).state = co.state ||| other.state ∧
    (co.mergeIntoSelf other).numCompactions
      = co.numCompactions + other.numCompactions ∧
    (co.mergeIntoSelf other).buf = co.buf ++ other.buf ∧
    (if co.numCompactions + other.numCompactions ≥ 2 ^ (co.numSections - 1) then
      (co.mergeIntoSelf other).numSections = co.numSections * 2 ∧
      (co.mergeIntoSelf other).sectionSizeF = co.sectionSizeF / Real.sqrt 2 ∧
      (co.mergeIntoSelf other).sectionSize = ⌊co.sectionSizeF / Real.sqrt 2⌋₊
     else
      (co.mergeIntoSelf other).numSections = co.numSections ∧
      (co.mergeIntoSelf other).sectionSizeF = co.sectionSizeF ∧
      (co.mergeIntoSelf other).sectionSize = co.sectionSize) := by
  unfold RelCompactor.mergeIntoSelf RelCompactor.ensureEnoughSections
  dsimp only
  by_cases hd : co.numCompactions + other.numCompactions ≥ 2 ^ (co.numSections - 1)
  · rw [if_pos hd, if_pos hd]
    exact ⟨rfl, rfl, rfl, rfl, rfl, rfl⟩
  · rw [if_neg hd, if_neg hd]
    exact ⟨rfl, rfl, rfl, rfl, rfl, rfl⟩

/-- C9 (corrected): `from_string(to_string(g))` always restores `d`,
`k`, `n` and the compactor vectors exactly, and restores `size` and
`max_size` exactly when the stored values satisfy
`size = Σ|compactors[h]|` and `max_size = k·len(compactors)`; after a
merge that padded the compactor list, the stored stale `max_size`
differs from the recomputed one. -/
theorem C9_serialization_roundtrip (g : GDE)
    (hs : g.size = gSumLen g.compactors)
    (hm : g.max_size = g.k * (g.compactors.length : Int)) :
    GDE.from_string (GDE.to_string g) = g := by
  cases g with
  | mk k d n size cs ms =>
      dsimp only [GDE.to_string, GDE.from_string] at *
      rw [← hs, ← hm]

theorem C9_witness :
    ((gInit 3).size = gSumLen (gInit 3).compactors ∧
      (gInit 3).max_size = (gInit 3).k * ((gInit 3).compactors.length : Int)) ∧
    GDE.from_string (GDE.to_string (gInit 3)) = gInit 3 :=
  ⟨⟨rfl, rfl⟩, C9_serialization_roundtrip (gInit 3) rfl rfl⟩

/-- C9 counterexample: the reachable merged sketch `gAM` stores
`max_size = 5`, but the round trip recomputes `max_size = k·len = 10`,
so `from_string(to_string(·))` is not the identity on the public
observable `max_size`. -/
theorem C9_counterexample :
    GReach gAM ∧ gAM.max_size = 5 ∧
    (GDE.from_string (GDE.to_string gAM)).max_size = 10 :=
  ⟨gAM_reach, rfl, by decide⟩

/-- C10: KLL and Req operations preserve the stored weight exactly: a
KLL compaction emits `⌊L/2⌋` items one level up and keeps `L % 2`
behind; update adds exactly 1 to the stored weight, compress preserves
it, and merge adds the two weights, for both sketches. -/
theorem C10_weight_preservation :
    (∀ (co : KCompactor) (coin : Bool),
      ((co.compact coin).1).length = co.buf.length / 2 ∧
      ((co.compact coin).2).buf.length = co.buf.length % 2) ∧
    (∀ (coins : Nat → Bool) (st : KllS) (x : Int), KBase st →
      kw (st.update coins x).compactors = kw st.compactors + 1) ∧
    (∀ (coins : Nat → Bool) (st : KllS), KBase st →
      kw (st.compress coins).compactors = kw st.compactors) ∧
    (∀ (coins : Nat → Bool) (st other : KllS), KBase st → KBase other →
      kw (st.merge coins other).compactors
        = kw st.compactors + kw other.compactors) ∧
    (∀ (coins : Nat → Bool) (st : ReqSketch) (x : Int) (st2 : ReqSketch),
      st.update coins x = .ok st2 → st.H = st.compactors.length →
      st.size = rsumLen st.compactors →
      rkw st2.compactors = rkw st.compactors + 1) ∧
    (∀ (coins : Nat → Bool) (st other st2 : ReqSketch),
      st.mergeIntoSelf coins other = .ok st2 → st.H = st.compactors.length →
      other.H = other.compactors.length →
      rkw st2.compactors = rkw st.compactors + rkw other.compactors) := by
  refine ⟨?_, ?_, ?_, ?_, ?_, ?_⟩
  · intro co coin
    exact ⟨kll_compact_fst_len co coin, kll_compact_snd_len co coin⟩
  · intro coins st x hb
    exact kll_update_kw coins st x hb
  · intro coins st hb
    exact kll_compress_kw coins st hb
  · intro coins st other hb hbo
    exact kll_merge_kw coins st other hb hbo
  · intro coins st x st2 hok hH hsz
    exact (req_update_spec coins st x st2 hok hH hsz).2.2.2.2.2
  · intro coins st other st2 hok hH hHo
    exact (req_merge_spec coins st other st2 hok hH hHo).2.2.2.2.2

theorem C10_witness :
    KBase stK0 ∧ stRQ0.update coinsF 7 = .ok stRQ1 ∧
    stRQ0.H = stRQ0.compactors.length ∧ stRQ0.size = rsumLen stRQ0.compactors ∧
    kw (stK0.update coinsF 3).compactors = kw stK0.compactors + 1 ∧
    rkw stRQ1.compactors = rkw stRQ0.compactors + 1 :=
  ⟨stK0_KBase, stRQ1_eval, rfl, rfl,
    C10_weight_preservation.2.1 coinsF stK0 3 stK0_KBase,
    C10_weight_preservation.2.2.2.2.1 coinsF stRQ0 7 stRQ1 stRQ1_eval rfl rfl⟩


